import Mathlib

/-!
Verification of the Surxrat text-obfuscation codecs.

This file gives a shallow embedding of the three codecs of the repository
(`methods/lana-vortex.js`, `methods/lexical-scramble.js`,
`methods/string-conceal.js`) and settles the specification claims about them.

JavaScript strings are modelled as lists of natural numbers (UTF-16 code
units); a thrown `Error` is modelled as `Except.error` carrying the message.
-/

namespace Surxrat

/-- Character codes of a Lean string literal; used to transcribe the
JavaScript string literals of the source. -/
def chars (s : String) : List Nat := s.data.map Char.toNat

/-- JavaScript string: a list of UTF-16 code units. -/
abbrev JStr := List Nat

/-- Result shape `{result, map}` returned by every codec operation. -/
structure JSRes where
  result : JStr
  map : JStr
deriving DecidableEq, Repr

/-- Fallible JavaScript computation: a thrown `Error` carries its message. -/
abbrev JSOut (α : Type) := Except JStr α

instance exceptDecEq {ε α : Type} [DecidableEq ε] [DecidableEq α] :
    DecidableEq (Except ε α)
  | .error e, .error e' => decidable_of_iff (e = e') (by simp)
  | .ok a, .ok a' => decidable_of_iff (a = a') (by simp)
  | .error _, .ok _ => isFalse (by simp)
  | .ok _, .error _ => isFalse (by simp)

/-- Truncation to a signed 32-bit integer, the effect of `|0` (`ToInt32`). -/
def toInt32 (x : Int) : Int := (x + 2 ^ 31) % 2 ^ 32 - 2 ^ 31

/-- Seed hash of `lana-vortex.js` (`createSeed`): starting from 0, each
character updates `hash = ((hash << 5) - hash) + char; hash |= 0`.
`hash << 5` itself truncates to 32 bits before the subtraction. -/
def createSeed (key : JStr) : Int :=
  key.foldl (fun h c => toInt32 (toInt32 (h * 32) - h + (c : Int))) 0

/-- One state update of the seeded generator of `lana-vortex.js`
(`seededRandom`): `seed = (seed * 9301 + 49297) % 233280` with the
JavaScript `%` (truncated remainder, sign of the dividend). -/
def nextSeed (s : Int) : Int := Int.tmod (s * 9301 + 49297) 233280

/-- Value returned by one draw of the generator: the updated seed divided
by 233280 (exact rational value of the JavaScript float division). -/
def rndValue (s : Int) : ℚ := (nextSeed s : ℚ) / 233280

/-- Position-keyed XOR cipher (`xorCipher` of `lana-vortex.js` and
`string-conceal.js`): character `i` is XORed with `key[i % key.length]`. -/
def xorAux (key : JStr) : Nat → JStr → JStr
  | _, [] => []
  | i, c :: rest => (c ^^^ key.getD (i % key.length) 0) :: xorAux key (i + 1) rest

/-- The XOR cipher applied from position 0. -/
def xorCipher (text key : JStr) : JStr := xorAux key 0 text

/-- Base64 alphabet used by `btoa`/`atob`. -/
def b64Alphabet : List Nat :=
  chars "ABCDEFGHIJKLMNOPQRSTUVWXYZabcdefghijklmnopqrstuvwxyz0123456789+/"

/-- Character for a 6-bit group. -/
def b64c (n : Nat) : Nat := b64Alphabet.getD n 0

/-- Base64 encoding of a byte list (the text produced by `btoa` on a string
of code units below 256); 61 is `'='`. -/
def btoaAux : List Nat → List Nat
  | [] => []
  | [a] => [b64c (a / 4), b64c (a % 4 * 16), 61, 61]
  | [a, b] => [b64c (a / 4), b64c (a % 4 * 16 + b / 16), b64c (b % 16 * 4), 61]
  | a :: b :: c :: rest =>
      b64c (a / 4) :: b64c (a % 4 * 16 + b / 16) :: b64c (b % 16 * 4 + c / 64) ::
        b64c (c % 64) :: btoaAux rest

/-- The browser `btoa`: throws `InvalidCharacterError` when some code unit
exceeds 255, otherwise produces the base64 text. -/
def btoa (s : JStr) : JSOut JStr :=
  if s.all (· < 256) then .ok (btoaAux s) else .error (chars "InvalidCharacterError")

/-- Position of the first occurrence of `a` in a list (`Array.indexOf` with
`none` in place of `-1`). -/
def posOf? (a : Nat) : List Nat → Option Nat
  | [] => none
  | b :: rest => if b = a then some 0 else (posOf? a rest).map (· + 1)

/-- Index of a base64 character, `none` for characters outside the alphabet. -/
def b64Inv (c : Nat) : Option Nat := posOf? c b64Alphabet

/-- Base64 decoding of a canonical base64 text, `none` on malformed input;
trailing bits of a final partial group are discarded as browsers do. -/
def atobAux : List Nat → Option (List Nat)
  | [] => some []
  | [c1, c2] => do
      let v1 ← b64Inv c1
      let v2 ← b64Inv c2
      some [v1 * 4 + v2 / 16]
  | [c1, c2, c3] => do
      let v1 ← b64Inv c1
      let v2 ← b64Inv c2
      let v3 ← b64Inv c3
      some [v1 * 4 + v2 / 16, v2 % 16 * 16 + v3 / 4]
  | c1 :: c2 :: c3 :: c4 :: rest =>
      if c3 = 61 ∧ c4 = 61 ∧ rest = [] then do
        let v1 ← b64Inv c1
        let v2 ← b64Inv c2
        some [v1 * 4 + v2 / 16]
      else if c4 = 61 ∧ rest = [] then do
        let v1 ← b64Inv c1
        let v2 ← b64Inv c2
        let v3 ← b64Inv c3
        some [v1 * 4 + v2 / 16, v2 % 16 * 16 + v3 / 4]
      else do
        let v1 ← b64Inv c1
        let v2 ← b64Inv c2
        let v3 ← b64Inv c3
        let v4 ← b64Inv c4
        let rest' ← atobAux rest
        some ([v1 * 4 + v2 / 16, v2 % 16 * 16 + v3 / 4, v3 % 4 * 64 + v4] ++ rest')
  | _ => none

/-- The browser `atob`: throws on input that is not valid base64. -/
def atob (s : JStr) : JSOut JStr :=
  match atobAux s with
  | some r => .ok r
  | none => .error (chars "InvalidCharacterError")

/-- Decimal digits of a number, as produced by JavaScript number-to-string
conversion for the (nonnegative integral) numbers serialized here. -/
def natToStr (n : Nat) : JStr := (Nat.toDigits 10 n).map Char.toNat

/-- Hexadecimal digit character (lowercase), for JSON control escapes. -/
def hexDigit (n : Nat) : Nat := if n < 10 then 48 + n else 87 + n

/-- Escape of one character inside a JSON string, as `JSON.stringify`
performs it. -/
def jsonEscapeChar (c : Nat) : JStr :=
  if c = 34 then [92, 34]
  else if c = 92 then [92, 92]
  else if c = 8 then [92, 98]
  else if c = 9 then [92, 116]
  else if c = 10 then [92, 110]
  else if c = 12 then [92, 102]
  else if c = 13 then [92, 114]
  else if c < 32 then [92, 117, 48, 48, hexDigit (c / 16), hexDigit (c % 16)]
  else [c]

/-- Escape of a whole JSON string body. -/
def jsonEscape (s : JStr) : JStr := s.flatMap jsonEscapeChar

/-- A JSON string token: `"` body `"` (34 is `'"'`). -/
def jsonQuote (s : JStr) : JStr := 34 :: jsonEscape s ++ [34]

/-- Join with a separator (`Array.prototype.join`). -/
def joinSep (sep : JStr) : List JStr → JStr
  | [] => []
  | [x] => x
  | x :: y :: rest => x ++ sep ++ joinSep sep (y :: rest)

/-- Compact `JSON.stringify` of an array of strings (91/93 are `[`/`]`,
44 is `,`). -/
def jsonStrArr (l : List JStr) : JStr :=
  91 :: joinSep [44] (l.map jsonQuote) ++ [93]

/-- Compact `JSON.stringify` of an array of numbers, where an unset array
slot (`undefined`) serializes as `null`. -/
def jsonNumArr (l : List (Option Nat)) : JStr :=
  91 :: joinSep [44] (l.map (fun o => match o with
    | some v => natToStr v
    | none => chars "null")) ++ [93]

/-- Body of a JSON string being parsed: characters up to the closing quote,
processing escapes; returns the decoded body and the input after the
closing quote. -/
def jsonParseStr : List Nat → Option (JStr × List Nat)
  | [] => none
  | c :: rest =>
    if c = 34 then some ([], rest)
    else if c = 92 then
      match rest with
      | [] => none
      | e :: rest' =>
        let dec? : Option JStr :=
          if e = 34 then some [34] else if e = 92 then some [92]
          else if e = 47 then some [47] else if e = 98 then some [8]
          else if e = 102 then some [12] else if e = 110 then some [10]
          else if e = 114 then some [13] else if e = 116 then some [9]
          else none
        match dec? with
        | some d => (jsonParseStr rest').map (fun (b, r) => (d ++ b, r))
        | none => none
    else (jsonParseStr rest).map (fun (b, r) => (c :: b, r))

/-- Item loop of `JSON.parse` on an array of strings: the input starts at an
item (or at the closing bracket for the empty array) and must be consumed
entirely.  The fuel argument dominates the input length. -/
def jsonArrLoop : Nat → List Nat → Option (List JStr)
  | _, [93] => some []
  | 0, _ => none
  | fuel + 1, l =>
    match l with
    | 34 :: rest =>
      match jsonParseStr rest with
      | some (b, after) =>
        match after with
        | 44 :: more => (jsonArrLoop fuel more).map (b :: ·)
        | [93] => some [b]
        | _ => none
      | none => none
    | _ => none

/-- The call `JSON.parse` on text captured as a bracketed array of strings;
throws a `SyntaxError` on anything else. -/
def jsonParseStrArr (s : JStr) : JSOut (List JStr) :=
  match s with
  | 91 :: rest =>
    match jsonArrLoop s.length rest with
    | some l => .ok l
    | none => .error (chars "Unexpected token in JSON")
  | _ => .error (chars "Unexpected token in JSON")

/-- Digits of one nonnegative JSON number followed by the rest. -/
def jsonParseNum (l : List Nat) : Option (Nat × List Nat) :=
  let ds := l.takeWhile (fun c => 48 ≤ c ∧ c ≤ 57)
  if ds = [] then none
  else some (ds.foldl (fun acc d => acc * 10 + (d - 48)) 0, l.drop ds.length)

/-- Item loop of `JSON.parse` on an array of nonnegative numbers. -/
def jsonNumLoop : Nat → List Nat → Option (List Nat)
  | _, [93] => some []
  | 0, _ => none
  | fuel + 1, l =>
    match jsonParseNum l with
    | some (n, after) =>
      match after with
      | 44 :: more => (jsonNumLoop fuel more).map (n :: ·)
      | [93] => some [n]
      | _ => none
    | none => none

/-- The call `JSON.parse` on text captured as a bracketed array of numbers. -/
def jsonParseNumArr (s : JStr) : JSOut (List Nat) :=
  match s with
  | 91 :: rest =>
    match jsonNumLoop s.length rest with
    | some l => .ok l
    | none => .error (chars "Unexpected token in JSON")
  | _ => .error (chars "Unexpected token in JSON")

/-- JavaScript whitespace for `trim` (tab through carriage return, space,
no-break space, line/paragraph separators, BOM). -/
def isJsSpace (c : Nat) : Bool := c ∈ [9, 10, 11, 12, 13, 32, 160, 8232, 8233, 65279]

/-- The call `String.prototype.trim`. -/
def jsTrim (s : JStr) : JStr := ((s.dropWhile isJsSpace).reverse.dropWhile isJsSpace).reverse

/-- JavaScript regex line terminators, which `.` does not match. -/
def lineTerm (c : Nat) : Bool := c = 10 ∨ c = 13 ∨ c = 8232 ∨ c = 8233

/-- Characters `.` matches (anything but a line terminator). -/
def regexDot (c : Nat) : Bool := ¬ lineTerm c

/-- Alphanumeric class `[a-zA-Z0-9]` of the decoder-name pattern. -/
def isAlnum (c : Nat) : Bool :=
  (65 ≤ c ∧ c ≤ 90) ∨ (97 ≤ c ∧ c ≤ 122) ∨ (48 ≤ c ∧ c ≤ 57)

/-- Character the lazy `.*?` may consume before a closing bracket. -/
def brkDot (c : Nat) : Bool := c ≠ 93 ∧ regexDot c

/-- First match of a regular expression: try the matcher at each start
position from the left, like the regex engine does. -/
def scanFirst {α : Type} (f : List Nat → Option α) : List Nat → Option α
  | [] => f []
  | c :: rest =>
    match f (c :: rest) with
    | some r => some r
    | none => scanFirst f rest

/-- Consume a literal piece of a pattern, returning the rest of the input. -/
def dropPfx (pat : JStr) (s : List Nat) : Option (List Nat) :=
  if pat.isPrefixOf s then some (s.drop pat.length) else none

/-- A `try ... catch (e)` block rethrowing `new Error(prefix + e.message)`. -/
def catchWrap {α : Type} (pfxMsg : JStr) (x : JSOut α) : JSOut α :=
  match x with
  | .ok v => .ok v
  | .error e => .error (pfxMsg ++ e)

/-- Match `\[.*?\]` at the current position: an opening bracket, then the
shortest run of non-line-terminator characters up to a closing bracket.
Returns the bracketed text (the regex capture). -/
def bracketLazy (s : List Nat) : Option JStr :=
  match s with
  | 91 :: rest =>
    let inner := rest.takeWhile brkDot
    match rest.drop inner.length with
    | 93 :: _ => some (91 :: inner ++ [93])
    | _ => none
  | _ => none

/-- Matcher for `/var p=(\[.*?\])/` at one position. -/
def lvPayloadMatcher (s : List Nat) : Option JStr := do
  let r ← dropPfx (chars "var p=") s
  bracketLazy r

/-- Matcher for `/var m=(\[.*?\])/` at one position. -/
def lvMapMatcher (s : List Nat) : Option JStr := do
  let r ← dropPfx (chars "var m=") s
  bracketLazy r

/-! ### FragmentCipherCodec (`lana-vortex.js`) -/

/-- Fragment size: `Math.max(2, Math.floor(key.length / 2))`. -/
def lvChunkSize (key : JStr) : Nat := max 2 (key.length / 2)

/-- Chunking loop with explicit fuel (the fuel dominates the input length,
so the zero-fuel branch is unreachable; each step consumes `size ≥ 1`
characters). -/
def chunkGo : Nat → Nat → JStr → List JStr
  | _, _, [] => []
  | 0, _, _ => []
  | fuel + 1, size, l => l.take size :: chunkGo fuel size (l.drop size)

/-- Split into consecutive chunks of `size` characters (the final chunk may
be shorter), as the fragmentation loop `code.substring(i, i + chunkSize)`
does.  `size = 0` cannot occur (the chunk size is at least 2). -/
def chunkList (size : Nat) (l : JStr) : List JStr :=
  if size = 0 then [] else chunkGo l.length size l

/-- Insert one element into the partially sorted list, consuming one
generator draw per comparison; the comparator `random() - 0.5` is negative
exactly when the updated seed is below 116640. -/
def insertRand : Int → Nat → List Nat → Int × List Nat
  | s, x, [] => (s, [x])
  | s, x, y :: ys =>
    let s' := nextSeed s
    if s' < 116640 then (s', x :: y :: ys)
    else ((insertRand s' x ys).1, y :: (insertRand s' x ys).2)

/-- Comparator-driven reorder of `Array.prototype.sort` under the
element-independent comparator `() => random() - 0.5`.  The element order an
engine produces is implementation-defined but is always a permutation of the
input and is a deterministic function of the draw sequence; it is modelled
as insertion sort consuming the same draws. -/
def sortRand (s : Int) (l : List Nat) : Int × List Nat :=
  l.foldl (fun acc x => insertRand acc.1 x acc.2) (s, [])

/-- The fragment list produced by an encode call. -/
def lvFragments (code key : JStr) : List JStr := chunkList (lvChunkSize key) code

/-- The shuffled index list `fragments.map((_, i) => i).sort(...)`. -/
def lvShuffled (code key : JStr) : List Nat :=
  (sortRand (createSeed key) (List.range (lvFragments code key).length)).2

/-- The write loop `originalOrderMap[originalIndex] = newIndex` over
`shuffledIndices.forEach`, on an array created with `new Array(n)` (unset
slots are `undefined`, modelled by `none`). -/
def lvPermWrites : List Nat → Nat → List (Option Nat) → List (Option Nat)
  | [], _, acc => acc
  | oi :: rest, j, acc => lvPermWrites rest (j + 1) (acc.set oi (some j))

/-- The PermutationMap embedded in the artifact: `map[originalIndex]` is the
shuffled position of fragment `originalIndex`. -/
def lvPerm (code key : JStr) : List (Option Nat) :=
  lvPermWrites (lvShuffled code key) 0 (List.replicate (lvFragments code key).length none)

/-- The shuffled fragment list `shuffledFragments[newIndex] =
fragments[originalIndex]`. -/
def lvShufFrags (code key : JStr) : List JStr :=
  (lvShuffled code key).map (fun oi => (lvFragments code key).getD oi [])

/-- The `encode` operation of `lana-vortex.js`. -/
def lvEncode (code key : JStr) : JSOut JSRes :=
  if code = [] ∨ key = [] then
    .error (chars "Code and key cannot be empty for Lana-Vortex.")
  else do
    let encryptedFragments ← (lvShufFrags code key).mapM (fun frag => btoa (xorCipher frag key))
    let payload := jsonStrArr encryptedFragments
    let orderMap := jsonNumArr (lvPerm code key)
    let decoderKey ← btoa key
    let wrapper := chars "(function()\x7bvar p=" ++ payload ++ chars ",m=" ++ orderMap ++
      chars ",k=atob(\"" ++ decoderKey ++
      chars "\"),x=function(t,k)\x7breturn t.split('').map(function(c,i)\x7breturn String.fromCharCode(c.charCodeAt(0)^k.charCodeAt(i%k.length))\x7d).join('')\x7d,d=new Array(p.length);p.forEach(function(e,i)\x7bvar oi=m.indexOf(i);d[oi]=x(atob(e),k)\x7d);(new Function(d.join('')))()\x7d)();"
    .ok ⟨jsTrim wrapper,
      chars "Deobfuscation requires the original key. The result is a self-executing script."⟩

/-! ### IdentifierRenameCodec (`lexical-scramble.js`) -/

/-- Input remaining after the first `*/`, if any (the lazy `[\s\S]*?\*\/`). -/
def findCommentClose : List Nat → Option (List Nat)
  | [] => none
  | [_] => none
  | a :: b :: rest =>
    if a = 42 ∧ b = 47 then some rest else findCommentClose (b :: rest)

/-- Comment-removal loop with explicit fuel (the fuel dominates the input
length; every step consumes at least one character). -/
def stripCommentsGo : Nat → List Nat → List Nat
  | _, [] => []
  | 0, l => l
  | _ + 1, [c] => [c]
  | fuel + 1, c :: d :: rest =>
    if c = 47 ∧ d = 42 then
      match findCommentClose rest with
      | some rest' => stripCommentsGo fuel rest'
      | none => c :: stripCommentsGo fuel (d :: rest)
    else if c = 47 ∧ d = 47 then
      stripCommentsGo fuel (rest.dropWhile (fun x => !lineTerm x))
    else c :: stripCommentsGo fuel (d :: rest)

/-- Comment removal by `code.replace(/\/\*[\s\S]*?\*\/|\/\/.*/g, '')` (first
alternative: lazy block comment, second: line comment up to a line
terminator); an unclosed `/*` matches neither alternative, so scanning
advances one character. -/
def stripComments (l : List Nat) : List Nat := stripCommentsGo l.length l

/-- Fueled body consumer of the string-stripping pattern
`(["'`])(?:(?=(\\?))\2.)*?\1` after its opening quote `q`: lazily try the
closing quote first; at a backslash the greedy inner group consumes the
backslash and the following character, falling back to consuming the
backslash alone when the rest cannot reach a closing quote.  Returns the
input after the closing quote.  The fuel dominates the input length. -/
def parseStripGo : Nat → Nat → List Nat → Option (List Nat)
  | _, _, [] => none
  | 0, _, _ => none
  | fuel + 1, q, c :: rest =>
    if c = q then some rest
    else if c = 92 then
      match rest with
      | [] => none
      | e :: rest' =>
        if regexDot e then
          match parseStripGo fuel q rest' with
          | some r => some r
          | none => parseStripGo fuel q (e :: rest')
        else parseStripGo fuel q (e :: rest')
    else if regexDot c then parseStripGo fuel q rest else none

/-- Body consumer of the string-stripping pattern, from full fuel. -/
def parseStrip (q : Nat) (l : List Nat) : Option (List Nat) := parseStripGo l.length q l

/-- Fueled string-literal removal loop of `getIdentifiers`. -/
def stripStringsGo : Nat → List Nat → List Nat
  | _, [] => []
  | 0, l => l
  | fuel + 1, c :: rest =>
    if c = 34 ∨ c = 39 ∨ c = 96 then
      match parseStrip c rest with
      | some rest' => stripStringsGo fuel rest'
      | none => c :: stripStringsGo fuel rest
    else c :: stripStringsGo fuel rest

/-- String-literal removal of `getIdentifiers`: at each quote or backtick
try the literal pattern; on success drop the literal, otherwise keep the
character and move on. -/
def stripStrings (l : List Nat) : List Nat := stripStringsGo l.length l

/-- Start character of the identifier pattern `[a-zA-Z_$]`. -/
def isIdStart (c : Nat) : Bool :=
  (65 ≤ c ∧ c ≤ 90) ∨ (97 ≤ c ∧ c ≤ 122) ∨ c = 95 ∨ c = 36

/-- Decimal digit. -/
def isDigitC (c : Nat) : Bool := 48 ≤ c ∧ c ≤ 57

/-- Continuation character of the identifier pattern `[a-zA-Z0-9_$]`. -/
def isIdChar (c : Nat) : Bool := isIdStart c ∨ isDigitC c

/-- Fueled loop of the identifier-token scan. -/
def scanIdsGo : Nat → List Nat → List JStr
  | _, [] => []
  | 0, _ => []
  | fuel + 1, c :: rest =>
    if isIdStart c then
      (c :: rest.takeWhile isIdChar) :: scanIdsGo fuel (rest.dropWhile isIdChar)
    else scanIdsGo fuel rest

/-- All matches of `/[a-zA-Z_$][a-zA-Z0-9_$]*/g` in order: maximal
identifier-shaped runs. -/
def scanIds (l : List Nat) : List JStr := scanIdsGo l.length l

/-- The reserved-word set of `getIdentifiers`. -/
def lsKeywords : List JStr :=
  [chars "break", chars "case", chars "catch", chars "continue", chars "debugger",
   chars "default", chars "delete", chars "do", chars "else", chars "finally",
   chars "for", chars "function", chars "if", chars "in", chars "instanceof",
   chars "new", chars "return", chars "switch", chars "this", chars "throw",
   chars "try", chars "typeof", chars "var", chars "let", chars "const",
   chars "void", chars "while", chars "with", chars "class", chars "enum",
   chars "export", chars "extends", chars "import", chars "super",
   chars "implements", chars "interface", chars "package", chars "private",
   chars "protected", chars "public", chars "static", chars "yield",
   chars "await", chars "null", chars "true", chars "false", chars "undefined",
   chars "document", chars "window", chars "console"]

/-- Deduplication preserving first-insertion order (a JavaScript `Set`
iterated with `Array.from`). -/
def dedupKeep (l : List JStr) : List JStr :=
  l.foldl (fun acc x => if x ∈ acc then acc else acc ++ [x]) []

/-- The `getIdentifiers` function: scan the comment- and string-stripped
copy for identifier tokens, excluding reserved words, first occurrence
first. -/
def getIdentifiers (code : JStr) : List JStr :=
  dedupKeep ((scanIds (stripStrings (stripComments code))).filter (fun t => t ∉ lsKeywords))

/-- The replacement-name alphabet of `generateName` (53 characters). -/
def lsAlphabet : JStr := chars "abcdefghijklmnopqrstuvwxyzABCDEFGHIJKLMNOPQRSTUVWXYZ_"

/-- Fueled form of the `generateName` do/while loop; the fuel dominates the
starting index, and the loop value strictly decreases, so the zero-fuel
branch is unreachable. -/
def generateNameGo : Nat → Nat → JStr
  | 0, n => [lsAlphabet.getD (n % lsAlphabet.length) 0]
  | fuel + 1, n =>
    if n < lsAlphabet.length then [lsAlphabet.getD (n % lsAlphabet.length) 0]
    else generateNameGo fuel (n / lsAlphabet.length - 1) ++
      [lsAlphabet.getD (n % lsAlphabet.length) 0]

/-- The `generateName` function: a do/while loop prepending
`alphabet[n % alphabet.length]` and setting `n = floor(n / alphabet.length) - 1`
until `n` drops below zero. -/
def generateName (n : Nat) : JStr := generateNameGo n n

/-- Modelled from the spec: the claimed name recurrence uses modulus 52
(`prepend alphabet[n mod 52]; set n = floor(n/52) - 1`) over the same
alphabet `a..z A..Z _`; stated here in the claim's words for comparison
with the source's `generateName`. -/
def generateNameSpec52Go : Nat → Nat → JStr
  | 0, n => [lsAlphabet.getD (n % 52) 0]
  | fuel + 1, n =>
    if n < 52 then [lsAlphabet.getD (n % 52) 0]
    else generateNameSpec52Go fuel (n / 52 - 1) ++ [lsAlphabet.getD (n % 52) 0]

/-- Modelled from the spec: the claimed 52-ary recurrence from index `n`. -/
def generateNameSpec52 (n : Nat) : JStr := generateNameSpec52Go n n

/-- Valuation of a generated name: interprets a digit string of the
bijective base-53 numeration, inverse to `generateName` (verification
helper). -/
def nameVal (s : JStr) : Int :=
  s.foldl (fun acc c => (acc + 1) * 53 + ((posOf? c lsAlphabet).getD 0 : Int)) (-1)

/-- Word character of the regex `\b` boundary (`\w`, which unlike the
identifier pattern excludes `$`). -/
def isWordC (c : Nat) : Bool := (65 ≤ c ∧ c ≤ 90) ∨ (97 ≤ c ∧ c ≤ 122) ∨ isDigitC c ∨ c = 95

/-- A `\b` boundary holds between two (possibly absent) characters when
exactly one of them is a word character. -/
def isBdry (a b : Option Nat) : Bool := a.elim false isWordC ≠ b.elim false isWordC

/-- Fueled scanner of `String.prototype.replace` with the global regex
`\b<old>\b` (for the identifier names substituted here, which contain no
regex metacharacters other than possibly `$`; names with `$` do not occur
in the properties proved below): at each position, replace a whole-word
occurrence of `old` and continue after it, tracking the previous original
character for the boundary test. -/
def rwGo : Nat → JStr → JStr → Option Nat → List Nat → List Nat
  | _, _, _, _, [] => []
  | 0, _, _, _, l => l
  | fuel + 1, old, nw, prev, c :: rest =>
    if old ≠ [] ∧ old.isPrefixOf (c :: rest) ∧ isBdry prev (some c) ∧
        isBdry old.getLast? (((c :: rest).drop old.length).head?) then
      nw ++ rwGo fuel old nw old.getLast? ((c :: rest).drop old.length)
    else c :: rwGo fuel old nw (some c) rest

/-- The call `str.replace(new RegExp('\\b' + old + '\\b', 'g'), nw)`. -/
def replaceWordAll (s old nw : JStr) : JStr := rwGo s.length old nw none s

/-- Stable insertion (JavaScript `sort` is stable) for the descending
length order `(a, b) => b.length - a.length`. -/
def insertLenDesc (x : JStr) : List JStr → List JStr
  | [] => [x]
  | y :: ys => if y.length ≥ x.length then y :: insertLenDesc x ys else x :: y :: ys

/-- Sort identifiers by descending length, longest first, stable. -/
def sortLenDesc (l : List JStr) : List JStr := l.foldl (fun acc x => insertLenDesc x acc) []

/-- Stable insertion for `(a, b) => b[1].length - a[1].length` on rename
entries. -/
def insertValLenDesc (x : JStr × JStr) : List (JStr × JStr) → List (JStr × JStr)
  | [] => [x]
  | y :: ys => if y.2.length ≥ x.2.length then y :: insertValLenDesc x ys else x :: y :: ys

/-- Sort rename entries by descending replacement-name length, stable. -/
def sortValLenDesc (l : List (JStr × JStr)) : List (JStr × JStr) :=
  l.foldl (fun acc x => insertValLenDesc x acc) []

/-- The sequential rewrite loop of `encode`: identifier `i` (in sorted
order) is replaced by `generateName(i)` in the progressively rewritten
code; returns the final code and the rename entries in insertion order. -/
def lsRewrite : List JStr → Nat → JStr → JStr × List (JStr × JStr)
  | [], _, code => (code, [])
  | old :: rest, i, code =>
    let nw := generateName i
    let (c2, pairs) := lsRewrite rest (i + 1) (replaceWordAll code old nw)
    (c2, (old, nw) :: pairs)

/-- Whitespace class `\s` of JavaScript regexes. -/
def isRegexWs (c : Nat) : Bool :=
  c = 9 ∨ c = 10 ∨ c = 11 ∨ c = 12 ∨ c = 13 ∨ c = 32 ∨ c = 160 ∨ c = 5760 ∨
  (8192 ≤ c ∧ c ≤ 8202) ∨ c = 8232 ∨ c = 8233 ∨ c = 8239 ∨ c = 8287 ∨ c = 12288 ∨ c = 65279

/-- Fueled loop of the whitespace collapse. -/
def collapseWsGo : Nat → List Nat → List Nat
  | _, [] => []
  | 0, l => l
  | fuel + 1, c :: rest =>
    if isRegexWs c then 32 :: collapseWsGo fuel (rest.dropWhile isRegexWs)
    else c :: collapseWsGo fuel rest

/-- The call `replace(/\s+/g, ' ')`: each maximal whitespace run becomes a
single space. -/
def collapseWs (l : List Nat) : List Nat := collapseWsGo l.length l

/-- Minification applied by `encode`: strip comments, collapse whitespace. -/
def lsMinify (code : JStr) : JStr := collapseWs (stripComments code)

/-- The call `JSON.stringify(obj, null, 2)` on a string-to-string object
(123/125 are the braces). -/
def jsonObjPretty (l : List (JStr × JStr)) : JStr :=
  match l with
  | [] => [123, 125]
  | _ => [123, 10] ++ joinSep [44, 10]
      (l.map (fun p => chars "  " ++ jsonQuote p.1 ++ chars ": " ++ jsonQuote p.2)) ++ [10, 125]

/-- The `encode` operation of `lexical-scramble.js`. -/
def lsEncode (code : JStr) : JSRes :=
  let identifiers := sortLenDesc (getIdentifiers code)
  let (scrambled, pairs) := lsRewrite identifiers 0 code
  ⟨lsMinify scrambled, jsonObjPretty pairs⟩

/-- JSON insignificant whitespace. -/
def isJsonWs (c : Nat) : Bool := c = 32 ∨ c = 9 ∨ c = 10 ∨ c = 13

/-- Skip insignificant whitespace. -/
def skipWs (l : List Nat) : List Nat := l.dropWhile isJsonWs

/-- Member loop of `JSON.parse` on an object with string values, after the
opening brace; returns the entries and the input after the closing brace. -/
def jsonObjLoop : Nat → List Nat → Option (List (JStr × JStr) × List Nat)
  | 0, _ => none
  | fuel + 1, l =>
    match skipWs l with
    | 34 :: rest =>
      match jsonParseStr rest with
      | some (k, r1) =>
        match skipWs r1 with
        | 58 :: r2 =>
          match skipWs r2 with
          | 34 :: r3 =>
            match jsonParseStr r3 with
            | some (v, r4) =>
              match skipWs r4 with
              | 44 :: r5 => (jsonObjLoop fuel r5).map (fun p => ((k, v) :: p.1, p.2))
              | 125 :: r5 => some ([(k, v)], r5)
              | _ => none
            | none => none
          | _ => none
        | _ => none
      | none => none
    | _ => none

/-- The call `JSON.parse` on a serialized rename table. -/
def jsonParseObj (s : JStr) : JSOut (List (JStr × JStr)) :=
  match skipWs s with
  | 123 :: rest =>
    match skipWs rest with
    | 125 :: r2 =>
      if skipWs r2 = [] then .ok [] else .error (chars "Unexpected token in JSON")
    | _ =>
      match jsonObjLoop s.length rest with
      | some (es, r) =>
        if skipWs r = [] then .ok es else .error (chars "Unexpected token in JSON")
      | none => .error (chars "Unexpected token in JSON")
  | _ => .error (chars "Unexpected token in JSON")

/-- The `decode` operation of `lexical-scramble.js`. -/
def lsDecode (scrambledCode mapJson : JStr) : JSOut JSRes :=
  if mapJson = [] then .error (chars "Deobfuscation map is required for Lexical Scramble.")
  else
    catchWrap (chars "Failed to parse map or deobfuscate. ")
      (do
        let nameMap ← jsonParseObj mapJson
        let entries := sortValLenDesc nameMap
        let original := entries.foldl (fun c p => replaceWordAll c p.2 p.1) scrambledCode
        .ok ⟨original, chars "Successfully deobfuscated using the provided map."⟩)

/-- Assignment `d[oi] = frag` on a JavaScript array: writing past the end
extends the array with holes. -/
def arrWriteO {α : Type} (l : List (Option α)) (i : Nat) (v : α) : List (Option α) :=
  if i < l.length then l.set i (some v)
  else l ++ List.replicate (i - l.length) none ++ [some v]

/-- The re-sorting loop of `decode`: fragment `i` of the shuffled order goes
to slot `orderMap.indexOf(i)`; a missing index throws. -/
def lvPlace : List JStr → Nat → List Nat → List (Option JStr) → JSOut (List (Option JStr))
  | [], _, _, acc => .ok acc
  | frag :: rest, i, orderMap, acc =>
    match posOf? i orderMap with
    | none => .error (chars "Map is inconsistent. Cannot find original index.")
    | some oi => lvPlace rest (i + 1) orderMap (arrWriteO acc oi frag)

/-- The call `array.join('')`; a hole or `undefined` entry joins as the
empty string. -/
def joinOpt (l : List (Option JStr)) : JStr := l.foldr (fun o acc => o.getD [] ++ acc) []

/-! ### StringExtractionCodec (`string-conceal.js`) -/

/-- Body parser for the literal pattern `"((?:[^"\\]|\\.)*)"` (and its
single-quote twin) after the opening quote `q`: each element is either one
non-quote non-backslash character or a backslash plus one non-line-terminator
character; the parse succeeds at the first unescaped closing quote.  Returns
the raw captured content (escapes unprocessed) and the input after the
closing quote. -/
def parseLit (q : Nat) : List Nat → Option (JStr × List Nat)
  | [] => none
  | c :: rest =>
    if c = q then some ([], rest)
    else if c = 92 then
      match rest with
      | [] => none
      | e :: rest' =>
        if regexDot e then (parseLit q rest').map (fun p => (92 :: e :: p.1, p.2))
        else none
    else (parseLit q rest).map (fun p => (c :: p.1, p.2))

/-- Fueled first pass of `encode`: the global replace over
`/"((?:[^"\\]|\\.)*)"|'((?:[^'\\]|\\.)*)'/g`, substituting
`__DECRYPT_PLACEHOLDER__(index)` for each literal and collecting the raw
contents in order.  At a quote that opens no well-formed literal, scanning
advances one character. -/
def extractGo : Nat → List Nat → Nat → JStr × List JStr
  | _, [], _ => ([], [])
  | 0, _, _ => ([], [])
  | fuel + 1, c :: rest, idx =>
    if c = 34 ∨ c = 39 then
      match parseLit c rest with
      | some (content, rest') =>
        let t := extractGo fuel rest' (idx + 1)
        (chars "__DECRYPT_PLACEHOLDER__(" ++ natToStr idx ++ [41] ++ t.1, content :: t.2)
      | none =>
        let t := extractGo fuel rest idx
        (c :: t.1, t.2)
    else
      let t := extractGo fuel rest idx
      (c :: t.1, t.2)

/-- String extraction starting at index 0. -/
def extractStrings (code : JStr) : JStr × List JStr := extractGo code.length code 0

/-- The second replace of `encode`:
`/__DECRYPT_PLACEHOLDER__\((.*?)\)/g` becomes `funcName($1)`. -/
def replacePHGo (funcName : JStr) : Nat → List Nat → List Nat
  | _, [] => []
  | 0, l => l
  | fuel + 1, c :: rest =>
    match dropPfx (chars "__DECRYPT_PLACEHOLDER__(") (c :: rest) with
    | some r =>
      let inner := r.takeWhile (fun x => x ≠ 41 ∧ ¬ lineTerm x)
      match r.drop inner.length with
      | 41 :: after => funcName ++ [40] ++ inner ++ [41] ++ replacePHGo funcName fuel after
      | _ => c :: replacePHGo funcName fuel rest
    | none => c :: replacePHGo funcName fuel rest

def replacePH (funcName : JStr) (l : List Nat) : List Nat := replacePHGo funcName l.length l

/-- The enumerated revelation lines
`decryptedStrings.map((s, i) => i + ': "' + s + '"').join('\n')`. -/
def enumLines : Nat → List JStr → JStr
  | _, [] => []
  | i, [s] => natToStr i ++ chars ": \"" ++ s ++ [34]
  | i, s :: rest => natToStr i ++ chars ": \"" ++ s ++ [34, 10] ++ enumLines (i + 1) rest

/-- The `encode` operation of `string-conceal.js`.  The four-character
base-36 tails of the two `Math.random()`-derived names are inputs
(`sufA`, `sufD`): the source draws them from `Math.random`, which is the
only entropy either codec consumes. -/
def scEncode (code key sufA sufD : JStr) : JSOut JSRes :=
  if key = [] then .error (chars "A secret key is required for String Concealment.")
  else
    let ext := extractStrings code
    if ext.2.length = 0 then .ok ⟨code, chars "No strings found to conceal."⟩
    else do
      let encryptedStrings ← ext.2.mapM (fun s => btoa (xorCipher s key))
      let arrayName := chars "_S" ++ sufA
      let funcName := chars "_D" ++ sufD
      let keyB ← btoa key
      let decoderLogic := chars "var " ++ arrayName ++ [61] ++ jsonStrArr encryptedStrings ++
        chars ";var " ++ funcName ++ chars "=function(i)\x7bvar k=\"" ++ keyB ++
        chars "\";return atob(" ++ arrayName ++
        chars "[i]).split('').map(function(c,j)\x7breturn String.fromCharCode(c.charCodeAt(0)^atob(k).charCodeAt(j%atob(k).length))\x7d).join('')\x7d;"
      let finalCode := decoderLogic ++ replacePH funcName ext.1
      .ok ⟨finalCode, chars "Concealed " ++ natToStr ext.2.length ++
        chars " strings. Deobfuscation can reveal the strings but not reconstruct the code automatically."⟩

/-- Matcher for `/var (_S[a-zA-Z0-9]+)=(\[.*?\]);/` at one position:
returns the array name and the bracketed capture. -/
def scArrMatcher (s : List Nat) : Option (JStr × JStr) := do
  let r1 ← dropPfx (chars "var _S") s
  let run := r1.takeWhile isAlnum
  if run = [] then none
  else
    match r1.drop run.length with
    | 61 :: r2 =>
      match bracketLazy r2 with
      | some cap =>
        match r2.drop cap.length with
        | 59 :: _ => some (chars "_S" ++ run, cap)
        | _ => none
      | none => none
    | _ => none

/-- Key-text character class `[a-zA-Z0-9=]` of the key matcher. -/
def isKeyChar (c : Nat) : Bool := (65 ≤ c ∧ c ≤ 90) ∨ (97 ≤ c ∧ c ≤ 122) ∨ isDigitC c ∨ c = 61

/-- Matcher for `/var k="([a-zA-Z0-9=]+)";/` at one position. -/
def scKeyMatcher (s : List Nat) : Option JStr := do
  let r1 ← dropPfx (chars "var k=\"") s
  let run := r1.takeWhile isKeyChar
  if run = [] then none
  else
    match r1.drop run.length with
    | 34 :: 59 :: _ => some run
    | _ => none

/-- The `decode` operation of `string-conceal.js`. -/
def scDecode (code key : JStr) : JSOut JSRes :=
  if key = [] then .error (chars "A secret key is required to reveal strings.")
  else
    catchWrap (chars "Failed to reveal strings. ")
      (match scanFirst scArrMatcher code, scanFirst scKeyMatcher code with
      | some am, some encodedKey => do
        let encryptedStrings ← jsonParseStrArr am.2
        let keyB ← btoa key
        if keyB ≠ encodedKey then .error (chars "The provided key is incorrect.")
        else do
          let decryptedStrings ← encryptedStrings.mapM (fun s => do
            let d ← atob s
            pure (xorCipher d key))
          .ok ⟨chars "// Code cannot be automatically reconstructed.\n// See the map/log for the list of revealed strings.",
            chars "Revealed strings from the concealed array:\n\n" ++ enumLines 0 decryptedStrings⟩
      | _, _ => .error (chars "Could not find the concealed string array or key in the code."))

/-- The `decode` operation of `lana-vortex.js`. -/
def lvDecode (encodedCode key : JStr) : JSOut JSRes :=
  if encodedCode = [] ∨ key = [] then
    .error (chars "Encoded code and key are required for decoding.")
  else
    catchWrap (chars "Decoding failed. The key might be incorrect or the code is corrupted. ")
      (match scanFirst lvPayloadMatcher encodedCode, scanFirst lvMapMatcher encodedCode with
      | some pj, some mj => do
        let payload ← jsonParseStrArr pj
        let orderMap ← jsonParseNumArr mj
        let decryptedShuffled ← payload.mapM (fun frag => do
          let d ← atob frag
          pure (xorCipher d key))
        let placed ← lvPlace decryptedShuffled 0 orderMap (List.replicate payload.length none)
        .ok ⟨joinOpt placed, chars "Successfully deobfuscated with the provided key."⟩
      | _, _ => .error (chars "Invalid Lana-Vortex format. Cannot find payload or map."))

/-- Verification helper: every space in the text is followed (inside the
text) by an underscore; rules out a `var k="` match starting in the region. -/
def spOk (l : List Nat) : Prop :=
  ∀ j, j < l.length → l.getD j 0 = 32 → j + 1 < l.length ∧ l.getD (j + 1) 0 = 95

/-! ## Theorems settling the claims -/

/-- Lower bound of the JavaScript remainder for a positive modulus. -/
theorem tmod_gt_neg (a : Int) {b : Int} (hb : 0 < b) : -b < Int.tmod a b := by
  cases a with
  | ofNat m =>
    have h := Int.tmod_nonneg (a := Int.ofNat m) b (Int.ofNat_nonneg m)
    omega
  | negSucc m =>
    obtain ⟨n, rfl⟩ := Int.eq_succ_of_zero_lt hb
    have hred : Int.tmod (Int.negSucc m) (↑n.succ) = -↑((m + 1) % (n + 1)) := rfl
    rw [hred]
    have hlt : (m + 1) % (n + 1) < n + 1 := Nat.mod_lt _ (Nat.succ_pos n)
    omega

/-- Appending a final digit to a name multiplies the valuation as one step
of the bijective base-53 numeration. -/
theorem nameVal_append (xs : JStr) (c : Nat) :
    nameVal (xs ++ [c]) = (nameVal xs + 1) * 53 + ((posOf? c lsAlphabet).getD 0 : Int) := by
  simp [nameVal, List.foldl_append]

/-- The alphabet position of each alphabet character recovers its index. -/
theorem posOf_alphabet : ∀ n, n < 53 → (posOf? (lsAlphabet.getD n 0) lsAlphabet).getD 0 = n := by
  decide

/-- The valuation inverts the fueled name generator whenever the fuel
dominates the index. -/
theorem nameVal_generateNameGo :
    ∀ fuel n, n ≤ fuel → nameVal (generateNameGo fuel n) = n := by
  intro fuel
  induction fuel with
  | zero =>
    intro n hn
    have h0 : n = 0 := by omega
    subst h0
    decide
  | succ fuel ih =>
    intro n hn
    rw [generateNameGo]
    by_cases h : n < lsAlphabet.length
    · rw [if_pos h]
      have h53 : lsAlphabet.length = 53 := rfl
      rw [h53] at h
      rw [show lsAlphabet.length = 53 from rfl]
      have hmod : n % 53 = n := Nat.mod_eq_of_lt h
      rw [hmod]
      simp only [nameVal, List.foldl_cons, List.foldl_nil]
      rw [posOf_alphabet n h]
      omega
    · rw [if_neg h]
      have h53 : lsAlphabet.length = 53 := rfl
      rw [h53] at h ⊢
      rw [nameVal_append]
      have hle : n / 53 - 1 ≤ fuel := by omega
      rw [ih _ hle]
      have hidx := posOf_alphabet (n % 53) (Nat.mod_lt _ (by norm_num))
      rw [hidx]
      omega

/-- The valuation inverts `generateName`. -/
theorem nameVal_generateName (n : Nat) : nameVal (generateName n) = n :=
  nameVal_generateNameGo n n le_rfl

/-- C1 (code evaluation at the failing input): for text `"hi"` and key
`"ab"`, `decode(encode("hi","ab").artifact, "ab")` does not return `"hi"`:
encode embeds the permutation map as `,m=[...]` inside a single `var`
statement, while decode searches for the literal text `var m=[...]`, finds
no match, and throws its format error.  The spec's round-trip (and the
decode doc comment promising the original code) is the evident intent, so
this is a code bug rather than a spec error. -/
theorem claim1_roundtrip_fails_on_code :
    (lvEncode (chars "hi") (chars "ab")).isOk = true ∧
    (do
      let r ← lvEncode (chars "hi") (chars "ab")
      lvDecode r.result (chars "ab")) =
      .error (chars "Decoding failed. The key might be incorrect or the code is corrupted. Invalid Lana-Vortex format. Cannot find payload or map.") := by
  decide

/-- C2 (amended): every draw updates the state by the JavaScript remainder
`S = (S * 9301 + 49297) % 233280` (truncated remainder, sign of the
dividend) and returns `S / 233280`, a value in the open interval (-1, 1);
the value lies in [0, 1) whenever the incoming seed is nonnegative, but the
seed hash can produce negative seeds, for which draws can be negative. -/
theorem claim2_generator_draw (s : Int) :
    nextSeed s = Int.tmod (s * 9301 + 49297) 233280 ∧
    (-1 : ℚ) < rndValue s ∧ rndValue s < 1 ∧
    (0 ≤ s → 0 ≤ rndValue s ∧ rndValue s < 1) := by
  have h1 : Int.tmod (s * 9301 + 49297) 233280 < 233280 :=
    Int.tmod_lt_of_pos _ (by norm_num)
  have h2 : -233280 < Int.tmod (s * 9301 + 49297) 233280 := tmod_gt_neg _ (by norm_num)
  have hb : (0 : ℚ) < 233280 := by norm_num
  have hub : rndValue s < 1 := by
    rw [rndValue, div_lt_one hb, nextSeed]
    exact_mod_cast h1
  have hlb : (-1 : ℚ) < rndValue s := by
    rw [rndValue, lt_div_iff hb, nextSeed]
    have : (-233280 : ℚ) < ((Int.tmod (s * 9301 + 49297) 233280 : Int) : ℚ) := by
      exact_mod_cast h2
    linarith
  refine ⟨rfl, hlb, hub, fun hs => ⟨?_, hub⟩⟩
  have h3 : 0 ≤ nextSeed s := by
    rw [nextSeed]
    exact Int.tmod_nonneg _ (by omega)
  rw [rndValue]
  have : (0 : ℚ) ≤ ((nextSeed s : Int) : ℚ) := by exact_mod_cast h3
  positivity

/-- Witness for C2 at the concrete seed 5. -/
theorem claim2_witness :
    nextSeed 5 = Int.tmod (5 * 9301 + 49297) 233280 ∧
    (-1 : ℚ) < rndValue 5 ∧ rndValue 5 < 1 ∧
    (0 ≤ (5 : Int) → 0 ≤ rndValue 5 ∧ rndValue 5 < 1) :=
  claim2_generator_draw 5

set_option maxRecDepth 4000 in
/-- C2 (counterexample): the non-empty key `"aaaaaa"` hashes to a negative
seed, and the first draw from it is negative, hence outside [0, 1). -/
theorem claim2_counterexample :
    createSeed (chars "aaaaaa") = -1425372064 ∧
    rndValue (createSeed (chars "aaaaaa")) < 0 := by
  have h : createSeed (chars "aaaaaa") = -1425372064 := by decide
  have h2 : nextSeed (-1425372064) = -70287 := by decide
  refine ⟨h, ?_⟩
  rw [h, rndValue, h2]
  norm_num

/-- C3: FragmentCipherCodec's encode consumes no entropy beyond its two
arguments (its generator is seeded from the key alone), so two calls with
identical text and key produce byte-identical artifacts. -/
theorem claim3_encode_deterministic (code1 key1 code2 key2 : JStr)
    (hc : code1 = code2) (hk : key1 = key2) :
    lvEncode code1 key1 = lvEncode code2 key2 := by
  rw [hc, hk]

/-- Witness for C3 at concrete arguments. -/
theorem claim3_witness :
    chars "hi" = chars "hi" ∧ chars "ab" = chars "ab" ∧
    lvEncode (chars "hi") (chars "ab") = lvEncode (chars "hi") (chars "ab") :=
  ⟨rfl, rfl, claim3_encode_deterministic _ _ _ _ rfl rfl⟩

/-- C4 (counterexample): StringExtractionCodec's encode does not reject
empty code: with empty code and the non-empty key `"k"` it succeeds,
returning the code unchanged with a "no strings" log, instead of failing
with an InvalidInput error. -/
theorem claim4_counterexample :
    scEncode [] (chars "k") (chars "aaaa") (chars "bbbb") =
      .ok ⟨[], chars "No strings found to conceal."⟩ := by
  decide

/-- C4 (amended): FragmentCipherCodec's encode rejects empty code or empty
key before any transformation; StringExtractionCodec's encode rejects an
empty key before any transformation but accepts empty code. -/
theorem claim4_empty_rejection (code key sufA sufD : JStr) :
    (code = [] ∨ key = [] →
      lvEncode code key = .error (chars "Code and key cannot be empty for Lana-Vortex.")) ∧
    (key = [] →
      scEncode code key sufA sufD =
        .error (chars "A secret key is required for String Concealment.")) := by
  constructor
  · intro h
    rw [lvEncode, if_pos h]
  · intro h
    rw [scEncode, if_pos h]

/-- Witness for C4 at concrete arguments. -/
theorem claim4_witness :
    lvEncode [] (chars "k") = .error (chars "Code and key cannot be empty for Lana-Vortex.") ∧
    scEncode (chars "x") [] (chars "a") (chars "b") =
      .error (chars "A secret key is required for String Concealment.") :=
  ⟨(claim4_empty_rejection [] (chars "k") [] []).1 (Or.inl rfl),
   (claim4_empty_rejection (chars "x") [] (chars "a") (chars "b")).2 rfl⟩

/-- C5 (counterexample): the replacement-name alphabet has 53 characters
(`a..z`, `A..Z`, `_`), so the source recurrence works modulo 53, not 52:
at index 52 the source generator yields `"_"` while the claimed mod-52
recurrence yields `"aa"`. -/
theorem claim5_counterexample :
    generateName 52 = chars "_" ∧ generateNameSpec52 52 = chars "aa" ∧
    generateName 52 ≠ generateNameSpec52 52 := by
  decide

/-- C5 (amended): the generator maps index n by prepending
`alphabet[n mod 53]` and iterating with `n = floor(n/53) - 1` over the
53-character alphabet `a..z A..Z _`, and the resulting names are
collision-free: the generator is injective. -/
theorem claim5_rename_generator_injective (m n : Nat)
    (h : generateName m = generateName n) : m = n := by
  have hm := nameVal_generateName m
  have hn := nameVal_generateName n
  rw [h] at hm
  omega

/-- Witness for C5 at a concrete index. -/
theorem claim5_witness : (7 : Nat) = 7 :=
  claim5_rename_generator_injective 7 7 rfl

/-- Base64 digits are alphabet characters. -/
theorem b64c_mem : ∀ n, n < 64 → b64c n ∈ b64Alphabet := by decide

/-- Base64 digits are never the padding character. -/
theorem b64c_ne_61 : ∀ n, n < 64 → b64c n ≠ 61 := by decide

/-- Decoding a base64 digit recovers its value. -/
theorem b64Inv_b64c : ∀ n, n < 64 → b64Inv (b64c n) = some n := by decide

/-- Every character of a base64 text is an alphabet character or `'='`. -/
theorem btoaAux_mem :
    ∀ (fuel : Nat) (s : List Nat), s.length ≤ fuel → (∀ c ∈ s, c < 256) →
      ∀ c ∈ btoaAux s, c ∈ b64Alphabet ∨ c = 61 := by
  intro fuel
  induction fuel with
  | zero =>
    intro s hl _ c hc
    cases s with
    | nil => simp [btoaAux] at hc
    | cons a rest => simp at hl
  | succ fuel ih =>
    intro s hl hs c hc
    match s with
    | [] => simp [btoaAux] at hc
    | [a] =>
      have ha : a < 256 := hs a (by simp)
      rw [btoaAux] at hc
      simp only [List.mem_cons, List.not_mem_nil, or_false] at hc
      rcases hc with h | h | h | h
      · rw [h]; exact Or.inl (b64c_mem _ (by omega))
      · rw [h]; exact Or.inl (b64c_mem _ (by omega))
      · exact Or.inr h
      · exact Or.inr h
    | [a, b] =>
      have ha : a < 256 := hs a (by simp)
      have hb : b < 256 := hs b (by simp)
      rw [btoaAux] at hc
      simp only [List.mem_cons, List.not_mem_nil, or_false] at hc
      rcases hc with h | h | h | h
      · rw [h]; exact Or.inl (b64c_mem _ (by omega))
      · rw [h]; exact Or.inl (b64c_mem _ (by omega))
      · rw [h]; exact Or.inl (b64c_mem _ (by omega))
      · exact Or.inr h
    | a :: b :: d :: rest =>
      have ha : a < 256 := hs a (by simp)
      have hb : b < 256 := hs b (by simp)
      have hd : d < 256 := hs d (by simp)
      rw [btoaAux] at hc
      simp only [List.mem_cons] at hc
      rcases hc with h | h | h | h | h
      · rw [h]; exact Or.inl (b64c_mem _ (by omega))
      · rw [h]; exact Or.inl (b64c_mem _ (by omega))
      · rw [h]; exact Or.inl (b64c_mem _ (by omega))
      · rw [h]; exact Or.inl (b64c_mem _ (by omega))
      · exact ih rest (by simp at hl; omega) (fun x hx => hs x (by simp [hx])) c h

/-- Round trip of the text encoding on byte lists. -/
theorem atobAux_btoaAux :
    ∀ (fuel : Nat) (s : List Nat), s.length ≤ fuel → (∀ c ∈ s, c < 256) →
      atobAux (btoaAux s) = some s := by
  intro fuel
  induction fuel with
  | zero =>
    intro s hl _
    cases s with
    | nil => rfl
    | cons a rest => simp at hl
  | succ fuel ih =>
    intro s hl hs
    match s with
    | [] => rfl
    | [a] =>
      have ha : a < 256 := hs a (by simp)
      rw [btoaAux, atobAux]
      rw [if_pos ⟨rfl, rfl, rfl⟩]
      rw [b64Inv_b64c _ (by omega), b64Inv_b64c _ (by omega)]
      simp only [Option.bind_eq_bind, Option.some_bind]
      congr 1
      congr 1
      omega
    | [a, b] =>
      have ha : a < 256 := hs a (by simp)
      have hb : b < 256 := hs b (by simp)
      rw [btoaAux, atobAux]
      rw [if_neg (by
        intro hcon
        exact b64c_ne_61 (b % 16 * 4) (by omega) hcon.1)]
      rw [if_pos ⟨rfl, rfl⟩]
      rw [b64Inv_b64c _ (by omega), b64Inv_b64c _ (by omega), b64Inv_b64c _ (by omega)]
      simp only [Option.bind_eq_bind, Option.some_bind]
      congr 1
      congr 1
      · omega
      · congr 1
        omega
    | a :: b :: d :: rest =>
      have ha : a < 256 := hs a (by simp)
      have hb : b < 256 := hs b (by simp)
      have hd : d < 256 := hs d (by simp)
      have hrest : ∀ c ∈ rest, c < 256 := fun x hx => hs x (by simp [hx])
      have hlen : rest.length ≤ fuel := by simp at hl; omega
      rw [btoaAux, atobAux]
      rw [if_neg (by
        intro hcon
        exact b64c_ne_61 (b % 16 * 4 + d / 64) (by omega) hcon.1)]
      rw [if_neg (by
        intro hcon
        exact b64c_ne_61 (d % 64) (by omega) hcon.1)]
      rw [b64Inv_b64c _ (by omega), b64Inv_b64c _ (by omega), b64Inv_b64c _ (by omega),
        b64Inv_b64c _ (by omega)]
      rw [ih rest hlen hrest]
      simp only [Option.bind_eq_bind, Option.some_bind]
      congr 1
      simp only [List.cons_append, List.nil_append]
      congr 1
      · omega
      · congr 1
        · omega
        · congr 1
          omega

/-- The XOR cipher is an involution position by position. -/
theorem xorAux_involution (key : JStr) :
    ∀ (t : JStr) (i : Nat), xorAux key i (xorAux key i t) = t := by
  intro t
  induction t with
  | nil => intro i; rfl
  | cons c rest ih =>
    intro i
    rw [xorAux, xorAux]
    rw [Nat.xor_assoc, Nat.xor_self, Nat.xor_zero]
    rw [ih (i + 1)]

/-- Decryption with the same key undoes the XOR cipher. -/
theorem xorCipher_involution (t key : JStr) :
    xorCipher (xorCipher t key) key = t :=
  xorAux_involution key t 0

/-- The XOR cipher of byte texts under byte keys stays below 256. -/
theorem xorAux_lt256 (key : JStr) (hk : ∀ c ∈ key, c < 256) :
    ∀ (t : JStr) (i : Nat), (∀ c ∈ t, c < 256) →
      ∀ c ∈ xorAux key i t, c < 256 := by
  intro t
  induction t with
  | nil => intro i _ c hc; simp [xorAux] at hc
  | cons a rest ih =>
    intro i ht c hc
    rw [xorAux] at hc
    rcases List.mem_cons.mp hc with h | h
    · have ha : a < 256 := ht a (by simp)
      have hkey : key.getD (i % key.length) 0 < 256 := by
        cases key with
        | nil => simp
        | cons k ks =>
          have hm : i % (k :: ks).length < (k :: ks).length :=
            Nat.mod_lt _ (by simp)
          rw [List.getD_eq_getElem _ _ hm]
          exact hk _ (List.getElem_mem hm)
      rw [h]
      have hx : a ^^^ key.getD (i % key.length) 0 < 2 ^ 8 :=
        Nat.xor_lt_two_pow (n := 8) ha hkey
      omega
    · exact ih (i + 1) (fun x hx => ht x (by simp [hx])) c h

/-- Byte bound for the whole cipher text. -/
theorem xorCipher_lt256 (t key : JStr) (ht : ∀ c ∈ t, c < 256)
    (hk : ∀ c ∈ key, c < 256) : ∀ c ∈ xorCipher t key, c < 256 :=
  xorAux_lt256 key hk t 0 ht

/-- A list `mapM` over a fallible map that succeeds pointwise. -/
theorem mapM_ok_of_all_ok {α β : Type} (f : α → JSOut β) (g : α → β) :
    ∀ (l : List α), (∀ a ∈ l, f a = .ok (g a)) → l.mapM f = .ok (l.map g) := by
  intro l
  induction l with
  | nil => intro _; rfl
  | cons a rest ih =>
    intro h
    rw [List.mapM_cons, h a (by simp), ih (fun x hx => h x (by simp [hx]))]
    rfl

/-- An escape-free character of a JSON string body survives stringify. -/
theorem jsonEscapeChar_id (c : Nat) (h : 32 ≤ c ∧ c ≠ 34 ∧ c ≠ 92) :
    jsonEscapeChar c = [c] := by
  rw [jsonEscapeChar]
  rw [if_neg h.2.1, if_neg h.2.2]
  rw [if_neg (by omega), if_neg (by omega), if_neg (by omega), if_neg (by omega),
    if_neg (by omega), if_neg (by omega)]

/-- An escape-free JSON string body survives stringify. -/
theorem jsonEscape_id (s : JStr) (h : ∀ c ∈ s, 32 ≤ c ∧ c ≠ 34 ∧ c ≠ 92) :
    jsonEscape s = s := by
  induction s with
  | nil => rfl
  | cons c rest ih =>
    rw [jsonEscape, List.flatMap_cons, jsonEscapeChar_id c (h c (by simp))]
    have hrec := ih (fun x hx => h x (by simp [hx]))
    rw [jsonEscape] at hrec
    rw [hrec]
    rfl

/-- Parsing a quoted escape-free body stops at the closing quote. -/
theorem jsonParseStr_clean (s : JStr) (h : ∀ c ∈ s, c ≠ 34 ∧ c ≠ 92) :
    ∀ rest, jsonParseStr (s ++ 34 :: rest) = some (s, rest) := by
  induction s with
  | nil =>
    intro rest
    show jsonParseStr (34 :: rest) = some ([], rest)
    rw [jsonParseStr.eq_def]
    simp
  | cons c tail ih =>
    intro rest
    have hc := h c (by simp)
    rw [List.cons_append, jsonParseStr.eq_def]
    simp only
    rw [if_neg hc.1, if_neg hc.2]
    rw [ih (fun x hx => h x (by simp [hx])) rest]
    rfl

/-- Maximal run lemma: `takeWhile` over a satisfying block stops exactly at
the first failing character. -/
theorem takeWhile_append_stop (p : Nat → Bool) :
    ∀ (a : List Nat) (c : Nat) (b : List Nat), (∀ x ∈ a, p x = true) → p c = false →
      (a ++ c :: b).takeWhile p = a := by
  intro a
  induction a with
  | nil =>
    intro c b _ hc
    simp [List.takeWhile_cons, hc]
  | cons x xs ih =>
    intro c b ha hc
    rw [List.cons_append, List.takeWhile_cons_of_pos (ha x (by simp))]
    rw [ih c b (fun y hy => ha y (by simp [hy])) hc]

/-- Serialized arrays dominate their item count in length. -/
theorem joinSep_quote_length :
    ∀ (l : List JStr), l.length ≤ (joinSep [44] (l.map jsonQuote)).length + 1 := by
  intro l
  induction l with
  | nil => simp
  | cons s rest ih =>
    cases rest with
    | nil => simp [joinSep, jsonQuote]
    | cons s2 r2 =>
      have hstep : joinSep [44] ((s :: s2 :: r2).map jsonQuote) =
          jsonQuote s ++ [44] ++ joinSep [44] ((s2 :: r2).map jsonQuote) := rfl
      rw [hstep]
      simp only [List.length_cons, List.length_append] at ih ⊢
      have hq : 2 ≤ (jsonQuote s).length := by
        rw [jsonQuote]
        simp
      omega

/-- The item loop of `JSON.parse` inverts serialization of clean string
lists whenever the fuel dominates the item count. -/
theorem jsonArrLoop_clean :
    ∀ (l : List JStr) (fuel : Nat), l.length ≤ fuel →
      (∀ s ∈ l, ∀ c ∈ s, 32 ≤ c ∧ c ≠ 34 ∧ c ≠ 92) →
      jsonArrLoop fuel (joinSep [44] (l.map jsonQuote) ++ [93]) = some l := by
  intro l
  induction l with
  | nil =>
    intro fuel _ _
    cases fuel <;> rfl
  | cons s rest ih =>
    intro fuel hf hclean
    have hs := hclean s (by simp)
    have hesc : jsonEscape s = s := jsonEscape_id s hs
    have hsne : ∀ c ∈ s, c ≠ 34 ∧ c ≠ 92 := fun c hc => (hs c hc).2
    cases fuel with
    | zero => simp at hf
    | succ fuel =>
      cases rest with
      | nil =>
        show jsonArrLoop (fuel + 1) ((34 :: jsonEscape s ++ [34]) ++ [93]) = some [s]
        rw [hesc]
        rw [jsonArrLoop.eq_def]
        have hshape : (34 :: s ++ [34]) ++ [93] = 34 :: (s ++ 34 :: [93]) := by
          simp
        rw [hshape]
        simp only
        rw [jsonParseStr_clean s hsne [93]]
      | cons s2 r2 =>
        have hstep : joinSep [44] ((s :: s2 :: r2).map jsonQuote) ++ [93] =
            34 :: (s ++ 34 :: (44 :: (joinSep [44] ((s2 :: r2).map jsonQuote) ++ [93]))) := by
          show (jsonQuote s ++ [44] ++ joinSep [44] ((s2 :: r2).map jsonQuote)) ++ [93] = _
          rw [jsonQuote, hesc]
          simp [List.append_assoc]
        rw [hstep]
        rw [jsonArrLoop.eq_def]
        simp only
        rw [jsonParseStr_clean s hsne _]
        show Option.map (fun x => s :: x)
            (jsonArrLoop fuel (joinSep [44] ((s2 :: r2).map jsonQuote) ++ [93])) =
          some (s :: s2 :: r2)
        rw [ih fuel (by simp only [List.length_cons] at hf ⊢; omega)
          (fun x hx => hclean x (List.mem_cons_of_mem s hx))]
        rfl

/-- Parsing inverts serialization on clean string arrays. -/
theorem jsonParseStrArr_roundtrip (l : List JStr)
    (hclean : ∀ s ∈ l, ∀ c ∈ s, 32 ≤ c ∧ c ≠ 34 ∧ c ≠ 92) :
    jsonParseStrArr (jsonStrArr l) = .ok l := by
  have hfuel : l.length ≤ (91 :: (joinSep [44] (l.map jsonQuote) ++ [93])).length := by
    have := joinSep_quote_length l
    simp only [List.length_cons, List.length_append]
    omega
  have h1 : jsonParseStrArr (jsonStrArr l) =
      match jsonArrLoop ((91 :: (joinSep [44] (l.map jsonQuote) ++ [93])).length)
        (joinSep [44] (l.map jsonQuote) ++ [93]) with
      | some l2 => .ok l2
      | none => .error (chars "Unexpected token in JSON") := rfl
  rw [h1, jsonArrLoop_clean l _ hfuel hclean]

/-- A match at the current position ends the scan. -/
theorem scanFirst_head {α : Type} (f : List Nat → Option α) (l : List Nat) (r : α)
    (h : f l = some r) : scanFirst f l = some r := by
  cases l with
  | nil => rw [scanFirst]; exact h
  | cons c rest => rw [scanFirst, h]

/-- When no position inside a leading block starts a match, scanning over
the block reaches the tail. -/
theorem scanFirst_append_none {α : Type} (f : List Nat → Option α) :
    ∀ (x y : List Nat), (∀ i, i < x.length → f (x.drop i ++ y) = none) →
      scanFirst f (x ++ y) = scanFirst f y := by
  intro x
  induction x with
  | nil => intro y _; simp
  | cons c rest ih =>
    intro y h
    rw [List.cons_append, scanFirst]
    have h0 := h 0 (by simp)
    simp only [List.drop_zero, List.cons_append] at h0
    rw [h0]
    exact ih y (fun i hi => by
      have := h (i + 1) (by simp only [List.length_cons]; omega)
      simpa using this)

/-- Space-free texts trivially satisfy the space condition. -/
theorem spOk_of_no_space (l : List Nat) (h : ∀ c ∈ l, c ≠ 32) : spOk l := by
  intro j hj hsp
  exfalso
  have hm : l.getD j 0 ∈ l := by
    rw [List.getD_eq_getElem _ _ hj]
    exact List.getElem_mem hj
  exact h _ hm hsp

/-- The space condition is closed under concatenation. -/
theorem spOk_append {A B : List Nat} (hA : spOk A) (hB : spOk B) : spOk (A ++ B) := by
  intro j hj hsp
  simp only [List.length_append] at hj ⊢
  by_cases hlt : j < A.length
  · have hval : (A ++ B).getD j 0 = A.getD j 0 := by
      simp only [List.getD_eq_getElem?_getD]
      rw [List.getElem?_append_left hlt]
    rw [hval] at hsp
    obtain ⟨hj1, hv1⟩ := hA j hlt hsp
    refine ⟨by omega, ?_⟩
    have hval2 : (A ++ B).getD (j + 1) 0 = A.getD (j + 1) 0 := by
      simp only [List.getD_eq_getElem?_getD]
      rw [List.getElem?_append_left hj1]
    rw [hval2, hv1]
  · have hge : A.length ≤ j := by omega
    have hval : (A ++ B).getD j 0 = B.getD (j - A.length) 0 := by
      simp only [List.getD_eq_getElem?_getD]
      rw [List.getElem?_append_right hge]
    rw [hval] at hsp
    have hjB : j - A.length < B.length := by omega
    obtain ⟨hj1, hv1⟩ := hB _ hjB hsp
    refine ⟨by omega, ?_⟩
    have hge1 : A.length ≤ j + 1 := by omega
    have hval2 : (A ++ B).getD (j + 1) 0 = B.getD (j + 1 - A.length) 0 := by
      simp only [List.getD_eq_getElem?_getD]
      rw [List.getElem?_append_right hge1]
    rw [hval2]
    have harith : j + 1 - A.length = j - A.length + 1 := by omega
    rw [harith]
    exact hv1

/-- The key matcher needs the literal `var k="` at the current position. -/
theorem scKeyMatcher_none_of_not_pfx {t : List Nat}
    (h : ¬ (chars "var k=\"").isPrefixOf t) : scKeyMatcher t = none := by
  rw [scKeyMatcher, dropPfx, if_neg h]
  rfl

/-- The fourth and fifth characters of any position matching `var k="`. -/
theorem pfx_varks_chars {t : List Nat} (h : (chars "var k=\"").isPrefixOf t) :
    t[3]? = some 32 ∧ t[4]? = some 107 := by
  rw [List.isPrefixOf_iff_prefix] at h
  obtain ⟨r, rfl⟩ := h
  exact ⟨rfl, rfl⟩

/-- No position strictly inside the decoder prelude before the key can
match `var k="`: every space there is followed by an underscore, and the
continuation starts with `var`. -/
theorem scKeyMatcher_region_none (P Y : List Nat) (hsp : spOk P)
    (hY0 : Y[0]? = some 118) (hY1 : Y[1]? = some 97) (hY2 : Y[2]? = some 114)
    (i : Nat) (hi : i < P.length) :
    scKeyMatcher (P.drop i ++ Y) = none := by
  apply scKeyMatcher_none_of_not_pfx
  intro hpfx
  obtain ⟨h3, h4⟩ := pfx_varks_chars hpfx
  have hdlen : (P.drop i).length = P.length - i := by simp
  by_cases hc : i + 3 < P.length
  · have e3 : (P.drop i ++ Y)[3]? = P[i + 3]? := by
      rw [List.getElem?_append_left (by omega), List.getElem?_drop]
    rw [e3] at h3
    have hg3 : P.getD (i + 3) 0 = 32 := by
      rw [List.getD_eq_getElem?_getD, h3]
      rfl
    obtain ⟨hb4, hv4⟩ := hsp (i + 3) hc hg3
    have e4 : (P.drop i ++ Y)[4]? = P[i + 4]? := by
      rw [List.getElem?_append_left (by omega), List.getElem?_drop]
    rw [e4] at h4
    have hg4 : P.getD (i + 4) 0 = 107 := by
      rw [List.getD_eq_getElem?_getD, h4]
      rfl
    rw [hv4] at hg4
    exact absurd hg4 (by norm_num)
  · have hd1 : 1 ≤ P.length - i := by omega
    have hd3 : P.length - i ≤ 3 := by omega
    have e3 : (P.drop i ++ Y)[3]? = Y[3 - (P.length - i)]? := by
      rw [List.getElem?_append_right (by omega)]
      rw [hdlen]
    interval_cases hdi : P.length - i
    · rw [e3] at h3
      rw [show (3 - 1 : Nat) = 2 from rfl, hY2] at h3
      exact absurd h3 (by simp)
    · rw [e3] at h3
      rw [show (3 - 2 : Nat) = 1 from rfl, hY1] at h3
      exact absurd h3 (by simp)
    · rw [e3] at h3
      rw [show (3 - 3 : Nat) = 0 from rfl, hY0] at h3
      exact absurd h3 (by simp)

/-- The key matcher at the key position captures the embedded key text. -/
theorem scKeyMatcher_at_key (keyB tail : List Nat) (hne : keyB ≠ [])
    (hk : ∀ c ∈ keyB, isKeyChar c = true) :
    scKeyMatcher (chars "var k=\"" ++ (keyB ++ 34 :: 59 :: tail)) = some keyB := by
  rw [scKeyMatcher, dropPfx]
  rw [if_pos (List.isPrefixOf_iff_prefix.mpr ⟨keyB ++ 34 :: 59 :: tail, rfl⟩)]
  show (Option.some ((chars "var k=\"" ++ (keyB ++ 34 :: 59 :: tail)).drop
      (chars "var k=\"").length)).bind _ = some keyB
  rw [List.drop_left]
  show (let run := (keyB ++ 34 :: 59 :: tail).takeWhile isKeyChar
    if run = [] then none
    else
      match (keyB ++ 34 :: 59 :: tail).drop run.length with
      | 34 :: 59 :: _ => some run
      | _ => none) = some keyB
  rw [takeWhile_append_stop isKeyChar keyB 34 (59 :: tail) hk (by decide)]
  simp only [if_neg hne]
  rw [List.drop_left]

/-- The array matcher succeeds at the head of the encode artifact. -/
theorem scArrMatcher_at_head (sufA inner tail : List Nat)
    (hsa : sufA ≠ []) (hal : ∀ c ∈ sufA, isAlnum c = true)
    (hinner : ∀ c ∈ inner, brkDot c = true) :
    scArrMatcher (chars "var _S" ++ (sufA ++ 61 :: 91 :: (inner ++ 93 :: 59 :: tail))) =
      some (chars "_S" ++ sufA, 91 :: inner ++ [93]) := by
  rw [scArrMatcher, dropPfx]
  rw [if_pos (List.isPrefixOf_iff_prefix.mpr ⟨sufA ++ 61 :: 91 :: (inner ++ 93 :: 59 :: tail), rfl⟩)]
  show (Option.some ((chars "var _S" ++ (sufA ++ 61 :: 91 :: (inner ++ 93 :: 59 :: tail))).drop
      (chars "var _S").length)).bind _ = _
  rw [List.drop_left]
  show (let run := (sufA ++ 61 :: 91 :: (inner ++ 93 :: 59 :: tail)).takeWhile isAlnum
    if run = [] then none
    else
      match (sufA ++ 61 :: 91 :: (inner ++ 93 :: 59 :: tail)).drop run.length with
      | 61 :: r2 =>
        match bracketLazy r2 with
        | some cap =>
          match r2.drop cap.length with
          | 59 :: _ => some (chars "_S" ++ run, cap)
          | _ => none
        | none => none
      | _ => none) = _
  rw [takeWhile_append_stop isAlnum sufA 61 _ hal (by decide)]
  simp only [if_neg hsa]
  rw [List.drop_left]
  show (match bracketLazy (91 :: (inner ++ 93 :: 59 :: tail)) with
    | some cap =>
      match (91 :: (inner ++ 93 :: 59 :: tail)).drop cap.length with
      | 59 :: _ => some (chars "_S" ++ sufA, cap)
      | _ => none
    | none => none) = _
  have hbrk : bracketLazy (91 :: (inner ++ 93 :: 59 :: tail)) = some (91 :: inner ++ [93]) := by
    rw [bracketLazy]
    show (let inner2 := (inner ++ 93 :: 59 :: tail).takeWhile brkDot
      match (inner ++ 93 :: 59 :: tail).drop inner2.length with
      | 93 :: _ => some (91 :: inner2 ++ [93])
      | _ => none) = _
    rw [takeWhile_append_stop brkDot inner 93 (59 :: tail) hinner (by decide)]
    show (match (inner ++ 93 :: 59 :: tail).drop inner.length with
      | 93 :: _ => some (91 :: inner ++ [93])
      | _ => none) = _
    rw [List.drop_left]
  rw [hbrk]
  show (match (91 :: (inner ++ 93 :: 59 :: tail)).drop ((91 : Nat) :: inner ++ [93]).length with
    | 59 :: _ => some (chars "_S" ++ sufA, (91 : Nat) :: inner ++ [93])
    | _ => none) = some (chars "_S" ++ sufA, 91 :: inner ++ [93])
  have hsplit : ((91 : Nat) :: (inner ++ 93 :: 59 :: tail)) =
      ((91 : Nat) :: inner ++ [93]) ++ (59 :: tail) := by simp
  rw [hsplit, List.drop_left]

/-- Characters of a parsed literal body and of the remaining input come
from the input. -/
theorem parseLit_mem (q : Nat) :
    ∀ (fuel : Nat) (l : List Nat), l.length ≤ fuel → ∀ b r, parseLit q l = some (b, r) →
      (∀ c ∈ b, c ∈ l) ∧ (∀ c ∈ r, c ∈ l) := by
  intro fuel
  induction fuel with
  | zero =>
    intro l hl b r h
    cases l with
    | nil => simp [parseLit] at h
    | cons c rest => simp at hl
  | succ fuel ih =>
    intro l hl b r h
    cases l with
    | nil => simp [parseLit] at h
    | cons c rest =>
      rw [parseLit.eq_def] at h
      simp only at h
      have hrest : rest.length ≤ fuel := by simp only [List.length_cons] at hl; omega
      by_cases hq : c = q
      · rw [if_pos hq] at h
        cases h
        exact ⟨fun x hx => absurd hx (List.not_mem_nil x),
          fun x hx => List.mem_cons_of_mem c hx⟩
      · rw [if_neg hq] at h
        by_cases hb : c = 92
        · rw [if_pos hb] at h
          cases rest with
          | nil => simp at h
          | cons e rest' =>
            simp only at h
            by_cases hd : regexDot e
            · rw [if_pos hd] at h
              cases hx : parseLit q rest' with
              | none => rw [hx] at h; simp at h
              | some p =>
                rw [hx] at h
                simp only [Option.map_some'] at h
                cases h
                have hlen : rest'.length ≤ fuel := by
                  simp only [List.length_cons] at hrest; omega
                obtain ⟨hb1, hr1⟩ := ih rest' hlen p.1 p.2 (by rw [hx])
                constructor
                · intro x hx2
                  simp only [List.mem_cons] at hx2 ⊢
                  rcases hx2 with h1 | h1 | h1
                  · exact Or.inl (hb ▸ h1)
                  · exact Or.inr (Or.inl h1)
                  · exact Or.inr (Or.inr (hb1 x h1))
                · intro x hx2
                  simp only [List.mem_cons]
                  exact Or.inr (Or.inr (hr1 x hx2))
            · rw [if_neg hd] at h; simp at h
        · rw [if_neg hb] at h
          cases hx : parseLit q rest with
          | none => rw [hx] at h; simp at h
          | some p =>
            rw [hx] at h
            simp only [Option.map_some'] at h
            cases h
            obtain ⟨hb1, hr1⟩ := ih rest hrest p.1 p.2 (by rw [hx])
            constructor
            · intro x hx2
              simp only [List.mem_cons] at hx2 ⊢
              rcases hx2 with h1 | h1
              · exact Or.inl h1
              · exact Or.inr (hb1 x h1)
            · intro x hx2
              exact List.mem_cons_of_mem c (hr1 x hx2)

/-- Extracted literal contents consist of characters of the input. -/
theorem extractGo_strings_mem :
    ∀ (fuel : Nat) (l : List Nat) (idx : Nat),
      ∀ s ∈ (extractGo fuel l idx).2, ∀ c ∈ s, c ∈ l := by
  intro fuel
  induction fuel with
  | zero =>
    intro l idx s hs
    cases l <;> simp [extractGo] at hs
  | succ fuel ih =>
    intro l idx s hs
    cases l with
    | nil => simp [extractGo] at hs
    | cons c rest =>
      rw [extractGo.eq_def] at hs
      simp only at hs
      by_cases hc : c = 34 ∨ c = 39
      · rw [if_pos hc] at hs
        cases hx : parseLit c rest with
        | none =>
          rw [hx] at hs
          simp only at hs
          exact fun x hx2 => List.mem_cons_of_mem c (ih rest idx s hs x hx2)
        | some p =>
          rw [hx] at hs
          simp only [List.mem_cons] at hs
          obtain ⟨hmem, hrmem⟩ := parseLit_mem c rest.length rest le_rfl p.1 p.2 (by
            rw [hx])
          rcases hs with h1 | h1
          · intro x hx2
            exact List.mem_cons_of_mem c (hmem x (h1 ▸ hx2))
          · intro x hx2
            exact List.mem_cons_of_mem c (hrmem x (ih p.2 (idx + 1) s h1 x hx2))
      · rw [if_neg hc] at hs
        simp only at hs
        exact fun x hx2 => List.mem_cons_of_mem c (ih rest idx s hs x hx2)

/-- A nonempty extraction means the input contains a quote character. -/
theorem extractGo_nonempty_quote :
    ∀ (fuel : Nat) (l : List Nat) (idx : Nat),
      (extractGo fuel l idx).2 ≠ [] → 34 ∈ l ∨ 39 ∈ l := by
  intro fuel
  induction fuel with
  | zero =>
    intro l idx h
    exfalso
    apply h
    cases l <;> rfl
  | succ fuel ih =>
    intro l idx h
    cases l with
    | nil => exact absurd rfl h
    | cons c rest =>
      rw [extractGo.eq_def] at h
      simp only at h
      by_cases hc : c = 34 ∨ c = 39
      · rcases hc with h1 | h1
        · exact Or.inl (by simp [h1])
        · exact Or.inr (by simp [h1])
      · rw [if_neg hc] at h
        simp only at h
        rcases ih rest idx h with h1 | h1
        · exact Or.inl (List.mem_cons_of_mem c h1)
        · exact Or.inr (List.mem_cons_of_mem c h1)

/-- Characters of a joined list come from the separator or an item. -/
theorem joinSep_mem {sep : JStr} :
    ∀ {l : List JStr} {c}, c ∈ joinSep sep l → c ∈ sep ∨ ∃ s ∈ l, c ∈ s := by
  intro l
  induction l with
  | nil => intro c hc; simp [joinSep] at hc
  | cons x rest ih =>
    intro c hc
    cases rest with
    | nil =>
      rw [joinSep] at hc
      exact Or.inr ⟨x, by simp, hc⟩
    | cons y r2 =>
      rw [joinSep] at hc
      simp only [List.mem_append] at hc
      rcases hc with (h1 | h1) | h1
      · exact Or.inr ⟨x, by simp, h1⟩
      · exact Or.inl h1
      · rcases ih h1 with h2 | ⟨s, hs, hcs⟩
        · exact Or.inl h2
        · exact Or.inr ⟨s, List.mem_cons_of_mem x hs, hcs⟩

/-- Characters of a serialized clean string array. -/
theorem jsonStrArr_mem {l : List JStr} {c : Nat}
    (hclean : ∀ s ∈ l, ∀ x ∈ s, 32 ≤ x ∧ x ≠ 34 ∧ x ≠ 92)
    (hc : c ∈ jsonStrArr l) :
    c = 91 ∨ c = 93 ∨ c = 44 ∨ c = 34 ∨ ∃ s ∈ l, c ∈ s := by
  rw [jsonStrArr] at hc
  simp only [List.mem_cons, List.mem_append, List.mem_singleton] at hc
  rcases hc with (h1 | h1) | h1
  · exact Or.inl h1
  · rcases joinSep_mem h1 with h2 | ⟨s, hs, hcs⟩
    · simp only [List.mem_singleton] at h2
      exact Or.inr (Or.inr (Or.inl h2))
    · simp only [List.mem_map] at hs
      obtain ⟨s0, hs0, rfl⟩ := hs
      rw [jsonQuote, jsonEscape_id s0 (hclean s0 hs0)] at hcs
      simp only [List.mem_cons, List.mem_append, List.mem_singleton] at hcs
      rcases hcs with (h3 | h3) | h3 | h3
      · exact Or.inr (Or.inr (Or.inr (Or.inl h3)))
      · exact Or.inr (Or.inr (Or.inr (Or.inr ⟨s0, hs0, h3⟩)))
      · exact Or.inr (Or.inr (Or.inr (Or.inl h3)))
      · exact absurd h3 (List.not_mem_nil c)
  · rcases h1 with h1 | h1
    · exact Or.inr (Or.inl h1)
    · exact absurd h1 (List.not_mem_nil c)

/-- Nonempty inputs produce nonempty base64 text. -/
theorem btoaAux_ne_nil {s : JStr} (h : s ≠ []) : btoaAux s ≠ [] := by
  match s with
  | [] => exact absurd rfl h
  | [a] => rw [btoaAux]; exact List.cons_ne_nil _ _
  | [a, b] => rw [btoaAux]; exact List.cons_ne_nil _ _
  | a :: b :: d :: rest => rw [btoaAux]; exact List.cons_ne_nil _ _

/-- `btoa` on texts of code units below 256 succeeds with the base64 text. -/
theorem btoa_ok (s : JStr) (h : ∀ c ∈ s, c < 256) : btoa s = .ok (btoaAux s) := by
  have hall : s.all (· < 256) = true := by
    rw [List.all_eq_true]
    intro c hc
    exact decide_eq_true (h c hc)
  rw [btoa, if_pos hall]

/-- Character facts about the base64 alphabet. -/
theorem b64_char_props :
    ∀ c ∈ b64Alphabet, (32 ≤ c ∧ c ≠ 34 ∧ c ≠ 92) ∧ c ≠ 32 ∧ brkDot c = true := by
  decide

/-- Characters of a base64 text: JSON-clean, not a space, and consumable
by the lazy bracket pattern. -/
theorem btoaAux_char_facts (s : JStr) (h : ∀ c ∈ s, c < 256) :
    ∀ c ∈ btoaAux s, (32 ≤ c ∧ c ≠ 34 ∧ c ≠ 92) ∧ c ≠ 32 ∧ brkDot c = true := by
  intro c hc
  rcases btoaAux_mem s.length s le_rfl h c hc with hm | h61
  · exact b64_char_props c hm
  · rw [h61]
    exact ⟨⟨by omega, by omega, by omega⟩, by omega, by decide⟩

/-- Characters between the brackets of the serialized concealed array:
no spaces, no closing bracket, no line terminators. -/
theorem encArr_inner_facts (l : List JStr)
    (h : ∀ s ∈ l, ∀ c ∈ s, (32 ≤ c ∧ c ≠ 34 ∧ c ≠ 92) ∧ c ≠ 32 ∧ brkDot c = true) :
    ∀ c ∈ joinSep [44] (l.map jsonQuote), c ≠ 32 ∧ brkDot c = true := by
  intro c hc
  rcases joinSep_mem hc with h1 | ⟨s, hs, hcs⟩
  · simp only [List.mem_singleton] at h1
    rw [h1]
    exact ⟨by omega, by decide⟩
  · simp only [List.mem_map] at hs
    obtain ⟨s0, hs0, rfl⟩ := hs
    rw [jsonQuote, jsonEscape_id s0 (fun x hx => (h s0 hs0 x hx).1)] at hcs
    simp only [List.mem_cons, List.mem_append, List.mem_singleton] at hcs
    rcases hcs with (h3 | h3) | h3 | h3
    · rw [h3]; exact ⟨by omega, by decide⟩
    · exact (h s0 hs0 c h3).2
    · rw [h3]; exact ⟨by omega, by decide⟩
    · exact absurd h3 (List.not_mem_nil c)

/-- The serialized concealed array contains no space. -/
theorem jsonStrArr_no_space (l : List JStr)
    (h : ∀ s ∈ l, ∀ c ∈ s, (32 ≤ c ∧ c ≠ 34 ∧ c ≠ 92) ∧ c ≠ 32 ∧ brkDot c = true) :
    ∀ c ∈ jsonStrArr l, c ≠ 32 := by
  intro c hc
  rcases jsonStrArr_mem (fun s hs x hx => (h s hs x hx).1) hc with h1 | h1 | h1 | h1 | ⟨s, hs, hcs⟩
  · omega
  · omega
  · omega
  · omega
  · exact (h s hs c hcs).2.1

/-- Alphanumeric characters are not spaces. -/
theorem alnum_ne_space {c : Nat} (h : isAlnum c = true) : c ≠ 32 := by
  rw [isAlnum] at h
  simp only [decide_eq_true_eq] at h
  omega

/-- Reduce the space condition to a finite check. -/
theorem spOk_of_fin (l : List Nat)
    (h : ∀ j : Fin l.length, l.getD j.1 0 = 32 → j.1 + 1 < l.length ∧ l.getD (j.1 + 1) 0 = 95) :
    spOk l := fun j hj hsp => h ⟨j, hj⟩ hsp

/-- Reduction of an `Except` bind whose first component has succeeded. -/
theorem jsbind_ok {α β : Type} (a : α) (f : α → JSOut β) :
    (Except.ok a : JSOut α) >>= f = f a := rfl

/-- Scan results on the artifact text produced by the concealment encoder:
the array pattern matches at the head, and the key pattern matches first
exactly at the embedded `var k="` position. -/
theorem scan_artifact (sufA sufD keyB rest : JStr) (enc : List JStr) (art : JStr)
    (hsa : sufA ≠ []) (hsal : ∀ c ∈ sufA, isAlnum c = true)
    (hsdl : ∀ c ∈ sufD, isAlnum c = true)
    (hkb : ∀ c ∈ keyB, isKeyChar c = true) (hkbne : keyB ≠ [])
    (hencf : ∀ s ∈ enc, ∀ c ∈ s, (32 ≤ c ∧ c ≠ 34 ∧ c ≠ 92) ∧ c ≠ 32 ∧ brkDot c = true)
    (hart : art = chars "var " ++ (chars "_S" ++ sufA) ++ [61] ++ jsonStrArr enc ++
      chars ";var " ++ (chars "_D" ++ sufD) ++ chars "=function(i)\x7bvar k=\"" ++ keyB ++
      chars "\";return atob(" ++ (chars "_S" ++ sufA) ++
      chars "[i]).split('').map(function(c,j)\x7breturn String.fromCharCode(c.charCodeAt(0)^atob(k).charCodeAt(j%atob(k).length))\x7d).join('')\x7d;" ++ rest) :
    scanFirst scArrMatcher art = some (chars "_S" ++ sufA, jsonStrArr enc) ∧
    scanFirst scKeyMatcher art = some keyB := by
  subst hart
  have hinner := encArr_inner_facts enc hencf
  constructor
  · have hEqA : chars "var " ++ (chars "_S" ++ sufA) ++ [61] ++ jsonStrArr enc ++
        chars ";var " ++ (chars "_D" ++ sufD) ++ chars "=function(i)\x7bvar k=\"" ++ keyB ++
        chars "\";return atob(" ++ (chars "_S" ++ sufA) ++
        chars "[i]).split('').map(function(c,j)\x7breturn String.fromCharCode(c.charCodeAt(0)^atob(k).charCodeAt(j%atob(k).length))\x7d).join('')\x7d;" ++ rest =
        chars "var _S" ++ (sufA ++ 61 :: 91 :: (joinSep [44] (enc.map jsonQuote) ++ 93 :: 59 ::
          (chars "var _D" ++ (sufD ++ (chars "=function(i)\x7bvar k=\"" ++ (keyB ++
            (chars "\";return atob(" ++ (chars "_S" ++ (sufA ++
              (chars "[i]).split('').map(function(c,j)\x7breturn String.fromCharCode(c.charCodeAt(0)^atob(k).charCodeAt(j%atob(k).length))\x7d).join('')\x7d;" ++ rest)))))))))) := by
      simp only [jsonStrArr, List.append_assoc, List.cons_append, List.singleton_append,
        List.nil_append]
      rfl
    rw [hEqA]
    exact scanFirst_head _ _ _
      (scArrMatcher_at_head sufA _ _ hsa hsal (fun c hc => (hinner c hc).2))
  · have hsp : spOk (chars "var _S" ++ (sufA ++ ([61] ++ (jsonStrArr enc ++
        (chars ";var _D" ++ (sufD ++ chars "=function(i)\x7b")))))) := by
      refine spOk_append (spOk_of_fin _ (by decide)) ?_
      refine spOk_append (spOk_of_no_space _ (fun c hc => alnum_ne_space (hsal c hc))) ?_
      refine spOk_append (spOk_of_no_space _ (by decide)) ?_
      refine spOk_append (spOk_of_no_space _ (jsonStrArr_no_space enc hencf)) ?_
      refine spOk_append (spOk_of_fin _ (by decide)) ?_
      exact spOk_append (spOk_of_no_space _ (fun c hc => alnum_ne_space (hsdl c hc)))
        (spOk_of_no_space _ (by decide))
    have hEqK : chars "var " ++ (chars "_S" ++ sufA) ++ [61] ++ jsonStrArr enc ++
        chars ";var " ++ (chars "_D" ++ sufD) ++ chars "=function(i)\x7bvar k=\"" ++ keyB ++
        chars "\";return atob(" ++ (chars "_S" ++ sufA) ++
        chars "[i]).split('').map(function(c,j)\x7breturn String.fromCharCode(c.charCodeAt(0)^atob(k).charCodeAt(j%atob(k).length))\x7d).join('')\x7d;" ++ rest =
        (chars "var _S" ++ (sufA ++ ([61] ++ (jsonStrArr enc ++
          (chars ";var _D" ++ (sufD ++ chars "=function(i)\x7b")))))) ++
        (chars "var k=\"" ++ (keyB ++ 34 :: 59 :: (chars "return atob(" ++ (chars "_S" ++ (sufA ++
          (chars "[i]).split('').map(function(c,j)\x7breturn String.fromCharCode(c.charCodeAt(0)^atob(k).charCodeAt(j%atob(k).length))\x7d).join('')\x7d;" ++ rest)))))) := by
      simp only [jsonStrArr, List.append_assoc, List.cons_append, List.singleton_append,
        List.nil_append]
      rfl
    rw [hEqK]
    rw [scanFirst_append_none scKeyMatcher _ _
      (fun i hi => scKeyMatcher_region_none _ _ hsp rfl rfl rfl i hi)]
    exact scanFirst_head _ _ _ (scKeyMatcher_at_key keyB _ hkbne hkb)

/-- Shape of a successful concealment encode: the artifact is the decoder
prelude holding the encrypted array and the embedded base64 key, followed
by the placeholder-substituted residue of the input. -/
theorem scEncode_shape (code key sufA sufD : JStr)
    (hkey : key ≠ []) (hck : ∀ c ∈ code, c < 256) (hkk : ∀ c ∈ key, c < 256)
    (hne : (extractStrings code).2 ≠ []) :
    scEncode code key sufA sufD = .ok
      ⟨chars "var " ++ (chars "_S" ++ sufA) ++ [61] ++
        jsonStrArr ((extractStrings code).2.map (fun s => btoaAux (xorCipher s key))) ++
        chars ";var " ++ (chars "_D" ++ sufD) ++ chars "=function(i)\x7bvar k=\"" ++ btoaAux key ++
        chars "\";return atob(" ++ (chars "_S" ++ sufA) ++
        chars "[i]).split('').map(function(c,j)\x7breturn String.fromCharCode(c.charCodeAt(0)^atob(k).charCodeAt(j%atob(k).length))\x7d).join('')\x7d;" ++
        replacePH (chars "_D" ++ sufD) (extractStrings code).1,
       chars "Concealed " ++ natToStr (extractStrings code).2.length ++
        chars " strings. Deobfuscation can reveal the strings but not reconstruct the code automatically."⟩ := by
  have hmap : (extractStrings code).2.mapM (fun s => btoa (xorCipher s key)) =
      .ok ((extractStrings code).2.map (fun s => btoaAux (xorCipher s key))) := by
    apply mapM_ok_of_all_ok
    intro a ha
    exact btoa_ok _ (xorCipher_lt256 a key
      (fun c hc => hck c (extractGo_strings_mem code.length code 0 a ha c hc)) hkk)
  simp only [scEncode]
  rw [if_neg hkey, if_neg (fun h0 => hne (List.eq_nil_of_length_eq_zero h0))]
  rw [hmap]
  simp only [jsbind_ok]
  rw [btoa_ok key hkk]
  simp only [jsbind_ok]

/-- Decrypting the encrypted array entries recovers the extracted strings. -/
theorem decrypt_mapM (key : JStr) (hkk : ∀ c ∈ key, c < 256) :
    ∀ (l : List JStr), (∀ s ∈ l, ∀ c ∈ s, c < 256) →
      (l.map (fun s => btoaAux (xorCipher s key))).mapM (fun s => do
        let d ← atob s
        pure (xorCipher d key)) = .ok l := by
  intro l
  induction l with
  | nil => intro _; rfl
  | cons t rest ih =>
    intro h
    rw [List.map_cons, List.mapM_cons]
    have hd : atob (btoaAux (xorCipher t key)) = .ok (xorCipher t key) := by
      rw [atob, atobAux_btoaAux (xorCipher t key).length _ le_rfl
        (xorCipher_lt256 t key (h t (by simp)) hkk)]
    rw [hd]
    simp only [jsbind_ok]
    rw [xorCipher_involution]
    rw [ih (fun s hs c hc => h s (by simp [hs]) c hc)]
    rfl

/-- Evaluation of decode after both regex scans succeed. -/
theorem scDecode_compute (code key amn amc ek : JStr)
    (hkey : key ≠ [])
    (h1 : scanFirst scArrMatcher code = some (amn, amc))
    (h2 : scanFirst scKeyMatcher code = some ek) :
    scDecode code key = catchWrap (chars "Failed to reveal strings. ") (do
      let encryptedStrings ← jsonParseStrArr amc
      let keyB ← btoa key
      if keyB ≠ ek then .error (chars "The provided key is incorrect.")
      else do
        let decryptedStrings ← encryptedStrings.mapM (fun s => do
          let d ← atob s
          pure (xorCipher d key))
        .ok ⟨chars "// Code cannot be automatically reconstructed.\n// See the map/log for the list of revealed strings.",
          chars "Revealed strings from the concealed array:\n\n" ++ enumLines 0 decryptedStrings⟩) := by
  rw [scDecode, if_neg hkey, h1, h2]

/-- An `indexOf` result is a position inside the list. -/
theorem posOf?_lt {a : Nat} : ∀ {l : List Nat} {k}, posOf? a l = some k → k < l.length := by
  intro l
  induction l with
  | nil => intro k h; simp [posOf?] at h
  | cons b rest ih =>
    intro k h
    rw [posOf?] at h
    split at h
    · cases h; simp
    · simp only [Option.map_eq_some'] at h
      obtain ⟨x, hx, rfl⟩ := h
      have := ih hx
      simp only [List.length_cons]
      omega

/-- An `indexOf` result points at the element searched for. -/
theorem posOf?_getD {a : Nat} : ∀ {l k}, posOf? a l = some k → l.getD k 0 = a := by
  intro l
  induction l with
  | nil => intro k h; simp [posOf?] at h
  | cons b rest ih =>
    intro k h
    rw [posOf?] at h
    split at h
    · rename_i hb
      cases h
      simpa using hb
    · simp only [Option.map_eq_some'] at h
      obtain ⟨x, hx, rfl⟩ := h
      simpa using ih hx

/-- A member has an `indexOf` position. -/
theorem posOf?_of_mem {a : Nat} : ∀ {l : List Nat}, a ∈ l → ∃ k, posOf? a l = some k := by
  intro l
  induction l with
  | nil => intro h; simp at h
  | cons b rest ih =>
    intro h
    rw [posOf?]
    by_cases hb : b = a
    · exact ⟨0, by rw [if_pos hb]⟩
    · rw [if_neg hb]
      have hm : a ∈ rest := by
        rcases List.mem_cons.mp h with h1 | h1
        · exact absurd h1.symm hb
        · exact h1
      obtain ⟨k, hk⟩ := ih hm
      exact ⟨k + 1, by rw [hk]; rfl⟩

/-- A member is absent from no prefix: `posOf?` of a missing element. -/
theorem posOf?_eq_none {a : Nat} : ∀ {l : List Nat}, a ∉ l → posOf? a l = none := by
  intro l
  induction l with
  | nil => intro _; rfl
  | cons b rest ih =>
    intro h
    rw [List.mem_cons, not_or] at h
    rw [posOf?, if_neg (fun hb => h.1 hb.symm), ih h.2]
    rfl

/-- Inserting one element under the stateful comparator permutes. -/
theorem insertRand_perm (x : Nat) :
    ∀ (l : List Nat) (s : Int), ((insertRand s x l).2).Perm (x :: l) := by
  intro l
  induction l with
  | nil => intro s; simp [insertRand]
  | cons y ys ih =>
    intro s
    simp only [insertRand]
    split
    · exact List.Perm.refl _
    · exact (List.Perm.cons y (ih _)).trans (List.Perm.swap x y ys)

/-- The comparator-driven reorder permutes its input. -/
theorem foldl_insertRand_perm :
    ∀ (l : List Nat) (s : Int) (acc : List Nat),
      ((l.foldl (fun acc2 x => insertRand acc2.1 x acc2.2) (s, acc)).2).Perm (l ++ acc) := by
  intro l
  induction l with
  | nil => intro s acc; simp
  | cons x xs ih =>
    intro s acc
    rw [List.foldl_cons]
    have h1 := ih (insertRand s x acc).1 (insertRand s x acc).2
    rw [Prod.mk.eta] at h1
    refine h1.trans ?_
    refine (List.Perm.append_left xs (insertRand_perm x acc s)).trans ?_
    exact List.perm_middle

/-- The shuffled index list is a permutation of `[0, n)`. -/
theorem lvShuffled_perm (code key : JStr) :
    (lvShuffled code key).Perm (List.range (lvFragments code key).length) := by
  have := foldl_insertRand_perm (List.range (lvFragments code key).length) (createSeed key) []
  simpa [lvShuffled, sortRand] using this

/-- Writing preserves array length. -/
theorem lvPermWrites_length :
    ∀ (lst : List Nat) (j : Nat) (acc : List (Option Nat)),
      (lvPermWrites lst j acc).length = acc.length := by
  intro lst
  induction lst with
  | nil => intro j acc; rfl
  | cons b rest ih =>
    intro j acc
    rw [lvPermWrites, ih]
    simp

/-- Reading back the write loop: slot `oi` holds the offset position of
`oi` in the written index list, or keeps its old value when `oi` is not
listed. -/
theorem lvPermWrites_getD :
    ∀ (lst : List Nat) (j : Nat) (acc : List (Option Nat)) (oi : Nat),
      lst.Nodup → oi < acc.length →
      (lvPermWrites lst j acc).getD oi none =
        (match posOf? oi lst with
         | some k => some (j + k)
         | none => acc.getD oi none) := by
  intro lst
  induction lst with
  | nil => intro j acc oi _ _; rfl
  | cons b rest ih =>
    intro j acc oi hnd hlt
    have hnd2 : rest.Nodup := hnd.of_cons
    have hbni : b ∉ rest := (List.nodup_cons.mp hnd).1
    rw [lvPermWrites, posOf?]
    rw [ih (j + 1) _ oi hnd2 (by simpa using hlt)]
    by_cases hb : b = oi
    · subst hb
      rw [if_pos rfl, posOf?_eq_none hbni]
      have hget : (acc.set b (some j)).getD b none = some j := by
        rw [List.getD_eq_getElem _ _ (by simpa using hlt)]
        exact List.getElem_set_self (by simpa using hlt)
      rw [hget]
      simp
    · rw [if_neg hb]
      have hget : (acc.set b (some j)).getD oi none = acc.getD oi none := by
        simp only [List.getD_eq_getElem?_getD]
        rw [List.getElem?_set_ne hb]
      rw [hget]
      cases hx : posOf? oi rest with
      | none => rfl
      | some k =>
        simp only [Option.map_some']
        have : j + 1 + k = j + (k + 1) := by omega
        rw [this]

/-- The permutation map read at an original index below the fragment
count. -/
theorem lvPerm_getD (code key : JStr) (oi : Nat)
    (h : oi < (lvFragments code key).length) :
    ∃ k, posOf? oi (lvShuffled code key) = some k ∧
      (lvPerm code key).getD oi none = some k := by
  have hperm := lvShuffled_perm code key
  have hmem : oi ∈ lvShuffled code key :=
    hperm.mem_iff.mpr (List.mem_range.mpr h)
  obtain ⟨k, hk⟩ := posOf?_of_mem hmem
  refine ⟨k, hk, ?_⟩
  have hnd : (lvShuffled code key).Nodup := hperm.nodup_iff.mpr (List.nodup_range _)
  rw [lvPerm, lvPermWrites_getD _ 0 _ oi hnd (by simpa using h), hk]
  simp

/-- The permutation map as an explicit tabulation. -/
theorem lvPerm_eq_map (code key : JStr) :
    lvPerm code key =
      (List.range (lvFragments code key).length).map
        (fun oi => some ((posOf? oi (lvShuffled code key)).getD 0)) := by
  have hlen : (lvPerm code key).length = (lvFragments code key).length := by
    rw [lvPerm, lvPermWrites_length]
    simp
  refine List.ext_getElem (by simpa using hlen) ?_
  intro i h1 h2
  have hi : i < (lvFragments code key).length := by simpa using h2
  obtain ⟨k, hk1, hk2⟩ := lvPerm_getD code key i hi
  have hgd : (lvPerm code key).getD i none = (lvPerm code key)[i] :=
    List.getD_eq_getElem _ _ h1
  rw [← hgd, hk2]
  simp [hk1]

/-- The offset positions of `[0, n)` inside the shuffled list form a
permutation of `[0, n)` (the inverse permutation). -/
theorem lvPerm_positions_perm (code key : JStr) :
    ((List.range (lvFragments code key).length).map
      (fun oi => (posOf? oi (lvShuffled code key)).getD 0)).Perm
      (List.range (lvFragments code key).length) := by
  have hperm := lvShuffled_perm code key
  have hlen : (lvShuffled code key).length = (lvFragments code key).length :=
    hperm.length_eq.trans (List.length_range _)
  have hmemk : ∀ oi ∈ List.range (lvFragments code key).length,
      ∃ k, posOf? oi (lvShuffled code key) = some k := fun oi hoi =>
    posOf?_of_mem (hperm.mem_iff.mpr hoi)
  have hinj : ∀ x ∈ List.range (lvFragments code key).length,
      ∀ y ∈ List.range (lvFragments code key).length,
      (posOf? x (lvShuffled code key)).getD 0 = (posOf? y (lvShuffled code key)).getD 0 →
        x = y := by
    intro x hx y hy hxy
    obtain ⟨kx, hkx⟩ := hmemk x hx
    obtain ⟨ky, hky⟩ := hmemk y hy
    rw [hkx, hky] at hxy
    simp only [Option.getD_some] at hxy
    subst hxy
    have h1 := posOf?_getD hkx
    have h2 := posOf?_getD hky
    rw [h1] at h2
    exact h2
  have hnodup : (((List.range (lvFragments code key).length)).map
      (fun oi => (posOf? oi (lvShuffled code key)).getD 0)).Nodup :=
    (List.nodup_range _).map_on hinj
  apply List.perm_of_nodup_nodup_toFinset_eq hnodup (List.nodup_range _)
  apply Finset.eq_of_subset_of_card_le
  · intro v hv
    rw [List.mem_toFinset] at hv ⊢
    simp only [List.mem_map] at hv
    obtain ⟨oi, hoi, rfl⟩ := hv
    obtain ⟨k, hk⟩ := hmemk oi hoi
    rw [hk]
    simp only [Option.getD_some]
    exact List.mem_range.mpr (hlen ▸ posOf?_lt hk)
  · rw [List.toFinset_card_of_nodup (List.nodup_range _),
      List.toFinset_card_of_nodup hnodup]
    simp

/-- C6: for every encode call the PermutationMap built by `encode` (and
embedded verbatim in the artifact) is a bijection over `[0, n)` for `n` the
fragment count: it has length `n`, it is a permutation of
`[some 0, …, some (n-1)]` — so every value of `[0, n)` occurs exactly once
and no slot is left unset — and slot `originalIndex` holds the shuffled
position of that fragment (`map[originalIndex] = newIndex`). -/
theorem claim6_perm_map_bijection (code key : JStr)
    (hc : code ≠ []) (hk : key ≠ []) :
    (lvPerm code key).length = (lvFragments code key).length ∧
    (lvPerm code key).Perm
      ((List.range (lvFragments code key).length).map some) ∧
    (∀ oi, oi < (lvFragments code key).length →
      ∃ j, (lvPerm code key).getD oi none = some j ∧
        (lvShufFrags code key).getD j [] = (lvFragments code key).getD oi []) := by
  refine ⟨?_, ?_, ?_⟩
  · rw [lvPerm, lvPermWrites_length]
    simp
  · rw [lvPerm_eq_map]
    have hmapsome :
        (List.range (lvFragments code key).length).map
          (fun oi => some ((posOf? oi (lvShuffled code key)).getD 0)) =
        ((List.range (lvFragments code key).length).map
          (fun oi => (posOf? oi (lvShuffled code key)).getD 0)).map some := by
      rw [List.map_map]
      rfl
    rw [hmapsome]
    exact (lvPerm_positions_perm code key).map some
  · intro oi hoi
    obtain ⟨k, hk1, hk2⟩ := lvPerm_getD code key oi hoi
    refine ⟨k, hk2, ?_⟩
    have hperm := lvShuffled_perm code key
    have hklt : k < (lvShuffled code key).length := posOf?_lt hk1
    rw [lvShufFrags]
    rw [List.getD_eq_getElem _ _ (by simpa using hklt)]
    rw [List.getElem_map]
    have hval := posOf?_getD hk1
    rw [List.getD_eq_getElem _ _ hklt] at hval
    rw [hval]

/-- Witness for C6 at concrete arguments. -/
theorem claim6_witness :
    (lvPerm (chars "hi") (chars "ab")).length =
      (lvFragments (chars "hi") (chars "ab")).length ∧
    (lvPerm (chars "hi") (chars "ab")).Perm
      ((List.range (lvFragments (chars "hi") (chars "ab")).length).map some) ∧
    (∀ oi, oi < (lvFragments (chars "hi") (chars "ab")).length →
      ∃ j, (lvPerm (chars "hi") (chars "ab")).getD oi none = some j ∧
        (lvShufFrags (chars "hi") (chars "ab")).getD j [] =
          (lvFragments (chars "hi") (chars "ab")).getD oi []) :=
  claim6_perm_map_bijection (chars "hi") (chars "ab") (by decide) (by decide)

/-- C9 (code evaluation at the failing input): on the text `x = "a"` the
round-trip of IdentifierRenameCodec fails: the identifier `x` is renamed to
`a`, decode's whole-word reverse substitution maps every occurrence of `a`
back to `x` — including the character inside the string literal — yielding
`x = "x"`, which differs from the minified original `x = "a"`.  The decode
doc comment promises the original code, so the replacement-name collision
with text occurring in the source is a code bug. -/
theorem claim9_rename_roundtrip_fails_on_code :
    lsEncode (chars "x = \"a\"") =
      ⟨chars "a = \"a\"", [123, 10] ++ chars "  \"x\": \"a\"" ++ [10, 125]⟩ ∧
    lsDecode (lsEncode (chars "x = \"a\"")).result (lsEncode (chars "x = \"a\"")).map =
      .ok ⟨chars "x = \"x\"", chars "Successfully deobfuscated using the provided map."⟩ ∧
    lsMinify (chars "x = \"a\"") = chars "x = \"a\"" ∧
    (chars "x = \"x\"" : JStr) ≠ chars "x = \"a\"" := by
  decide

/-- C10: FragmentCipherCodec's decode rejects an empty artifact text or an
empty key up front, with a dedicated error raised before any parsing of the
artifact (the pre-parse message is distinct from every error produced
inside the decoding block). -/
theorem claim10_decode_rejects_empty (encodedCode key : JStr)
    (h : encodedCode = [] ∨ key = []) :
    lvDecode encodedCode key =
      .error (chars "Encoded code and key are required for decoding.") := by
  rw [lvDecode, if_pos h]

/-- Witness for C10 at concrete arguments. -/
theorem claim10_witness :
    lvDecode [] (chars "ab") =
      .error (chars "Encoded code and key are required for decoding.") :=
  claim10_decode_rejects_empty [] (chars "ab") (Or.inl rfl)

/-- **C7** (corrected): for every artifact produced by a concealment encode
whose embedded base64 key text lies in the key pattern's character class,
and every non-empty byte key whose base64 encoding differs from the
embedded one, decode fails with the wrong-key error. -/
theorem claim7_wrong_key_rejected (code key wrongKey sufA sufD : JStr)
    (hkey : key ≠ []) (hwkey : wrongKey ≠ [])
    (hck : ∀ c ∈ code, c < 256) (hkk : ∀ c ∈ key, c < 256)
    (hwkk : ∀ c ∈ wrongKey, c < 256)
    (hkb : ∀ c ∈ btoaAux key, isKeyChar c = true)
    (hsa : sufA ≠ []) (hsal : ∀ c ∈ sufA, isAlnum c = true)
    (hsdl : ∀ c ∈ sufD, isAlnum c = true)
    (hne : (extractStrings code).2 ≠ [])
    (hdiff : btoaAux wrongKey ≠ btoaAux key) :
    ∃ res log, scEncode code key sufA sufD = .ok ⟨res, log⟩ ∧
      scDecode res wrongKey =
        .error (chars "Failed to reveal strings. The provided key is incorrect.") := by
  have hencf : ∀ s ∈ (extractStrings code).2.map (fun s => btoaAux (xorCipher s key)),
      ∀ c ∈ s, (32 ≤ c ∧ c ≠ 34 ∧ c ≠ 92) ∧ c ≠ 32 ∧ brkDot c = true := by
    intro s hs
    simp only [List.mem_map] at hs
    obtain ⟨t, ht, rfl⟩ := hs
    exact btoaAux_char_facts _ (xorCipher_lt256 t key
      (fun c hc => hck c (extractGo_strings_mem code.length code 0 t ht c hc)) hkk)
  obtain ⟨hs1, hs2⟩ := scan_artifact sufA sufD (btoaAux key)
    (replacePH (chars "_D" ++ sufD) (extractStrings code).1)
    ((extractStrings code).2.map (fun s => btoaAux (xorCipher s key))) _
    hsa hsal hsdl hkb (btoaAux_ne_nil hkey) hencf rfl
  refine ⟨_, _, scEncode_shape code key sufA sufD hkey hck hkk hne, ?_⟩
  rw [scDecode_compute _ wrongKey _ _ _ hwkey hs1 hs2]
  rw [jsonParseStrArr_roundtrip _ (fun s hs c hc => (hencf s hs c hc).1)]
  simp only [jsbind_ok]
  rw [btoa_ok wrongKey hwkk]
  simp only [jsbind_ok]
  rw [if_pos hdiff]
  rfl

/-- Witness for the C7 theorem: a two-byte key and a wrong key differing
in base64 form, on a small program with one string literal. -/
theorem claim7_witness :
    ∃ res log, scEncode (chars "x=\"hi\";") (chars "ab") (chars "q") (chars "r") =
        .ok ⟨res, log⟩ ∧
      scDecode res (chars "ac") =
        .error (chars "Failed to reveal strings. The provided key is incorrect.") :=
  claim7_wrong_key_rejected (chars "x=\"hi\";") (chars "ab") (chars "ac") (chars "q") (chars "r")
    (by decide) (by decide) (by decide) (by decide) (by decide) (by decide) (by decide)
    (by decide) (by decide) (by decide) (by decide)

/-- **C8** (on the success path): decoding an artifact of encode with the
right key returns the fixed placeholder comment — never the original
program text — together with the enumeration of exactly the extracted
string literals, in order. -/
theorem claim8_decode_lossy_enumeration (code key sufA sufD : JStr)
    (hkey : key ≠ []) (hck : ∀ c ∈ code, c < 256) (hkk : ∀ c ∈ key, c < 256)
    (hkb : ∀ c ∈ btoaAux key, isKeyChar c = true)
    (hsa : sufA ≠ []) (hsal : ∀ c ∈ sufA, isAlnum c = true)
    (hsdl : ∀ c ∈ sufD, isAlnum c = true)
    (hne : (extractStrings code).2 ≠ []) :
    ∃ res log, scEncode code key sufA sufD = .ok ⟨res, log⟩ ∧
      scDecode res key = .ok
        ⟨chars "// Code cannot be automatically reconstructed.\n// See the map/log for the list of revealed strings.",
         chars "Revealed strings from the concealed array:\n\n" ++
           enumLines 0 (extractStrings code).2⟩ ∧
      chars "// Code cannot be automatically reconstructed.\n// See the map/log for the list of revealed strings." ≠ code := by
  have hencf : ∀ s ∈ (extractStrings code).2.map (fun s => btoaAux (xorCipher s key)),
      ∀ c ∈ s, (32 ≤ c ∧ c ≠ 34 ∧ c ≠ 92) ∧ c ≠ 32 ∧ brkDot c = true := by
    intro s hs
    simp only [List.mem_map] at hs
    obtain ⟨t, ht, rfl⟩ := hs
    exact btoaAux_char_facts _ (xorCipher_lt256 t key
      (fun c hc => hck c (extractGo_strings_mem code.length code 0 t ht c hc)) hkk)
  obtain ⟨hs1, hs2⟩ := scan_artifact sufA sufD (btoaAux key)
    (replacePH (chars "_D" ++ sufD) (extractStrings code).1)
    ((extractStrings code).2.map (fun s => btoaAux (xorCipher s key))) _
    hsa hsal hsdl hkb (btoaAux_ne_nil hkey) hencf rfl
  refine ⟨_, _, scEncode_shape code key sufA sufD hkey hck hkk hne, ?_, ?_⟩
  · rw [scDecode_compute _ key _ _ _ hkey hs1 hs2]
    rw [jsonParseStrArr_roundtrip _ (fun s hs c hc => (hencf s hs c hc).1)]
    simp only [jsbind_ok]
    rw [btoa_ok key hkk]
    simp only [jsbind_ok]
    rw [if_neg (fun hne2 => hne2 rfl)]
    rw [decrypt_mapM key hkk (extractStrings code).2
      (fun s hs c hc => hck c (extractGo_strings_mem code.length code 0 s hs c hc))]
    simp only [jsbind_ok]
    rfl
  · intro hEqc
    rcases extractGo_nonempty_quote code.length code 0 hne with hq | hq
    · rw [← hEqc] at hq
      exact absurd hq (by decide)
    · rw [← hEqc] at hq
      exact absurd hq (by decide)

/-- Witness for the C8 theorem at a concrete program and key. -/
theorem claim8_witness :
    ∃ res log, scEncode (chars "x=\"hi\";") (chars "ab") (chars "q") (chars "r") =
        .ok ⟨res, log⟩ ∧
      scDecode res (chars "ab") = .ok
        ⟨chars "// Code cannot be automatically reconstructed.\n// See the map/log for the list of revealed strings.",
         chars "Revealed strings from the concealed array:\n\n" ++
           enumLines 0 (extractStrings (chars "x=\"hi\";")).2⟩ ∧
      chars "// Code cannot be automatically reconstructed.\n// See the map/log for the list of revealed strings." ≠ chars "x=\"hi\";" :=
  claim8_decode_lossy_enumeration (chars "x=\"hi\";") (chars "ab") (chars "q") (chars "r")
    (by decide) (by decide) (by decide) (by decide) (by decide) (by decide) (by decide)
    (by decide)

set_option maxRecDepth 8000 in
/-- **C7** counterexample: with the one-character key outside Latin-1
letters (code unit 248, lowercase o-slash), the embedded base64 key text
is the four characters plus-A-equals-equals; its leading plus sign lies
outside the key pattern's class, so decode with a differently encoding
key fails with the malformed-artifact error, not the wrong-key error. -/
theorem claim7_counterexample :
    (scEncode (chars "let x = \"hi\";") [248] (chars "abcd") (chars "efgh")).toOption.isSome =
      true ∧
    (match scEncode (chars "let x = \"hi\";") [248] (chars "abcd") (chars "efgh") with
      | .ok r => scDecode r.result [97]
      | .error e => .error e) =
      .error (chars "Failed to reveal strings. Could not find the concealed string array or key in the code.") ∧
    btoaAux [97] ≠ btoaAux [248] := by
  refine ⟨by decide, by decide, by decide⟩

end Surxrat

